import Mathlib

/-!
Verification development for the BespokeDocs declaration parser and
snippet-generation pipeline (src/bespoke_docs.py).

The Python source is shallowly embedded: pure helper functions become Lean
functions on `String` / `List Char`, the per-invocation plugin settings become
an explicit `PluginSettings` record, and Python exceptions (IndexError from
indexing an empty string, and the bare `except:` in `BespokeDocsParser.parse`)
are modelled with `Except PyErr`.  String literals write the brace characters
as the escapes \x7b and \x7d throughout.
-/

namespace BespokeDocs

/-- Python exceptions that the embedded code can raise. -/
inductive PyErr
  | indexError
  deriving DecidableEq

instance exceptDecidableEq {ε α : Type} [DecidableEq ε] [DecidableEq α] :
    DecidableEq (Except ε α) := fun x y =>
  match x, y with
  | .ok a, .ok b =>
    if h : a = b then isTrue (by rw [h])
    else isFalse (by intro hh; cases hh; exact h rfl)
  | .error a, .error b =>
    if h : a = b then isTrue (by rw [h])
    else isFalse (by intro hh; cases hh; exact h rfl)
  | .ok _, .error _ => isFalse (by intro hh; cases hh)
  | .error _, .ok _ => isFalse (by intro hh; cases hh)

/-- The left brace character. -/
def lbrace : Char := Char.ofNat 123

/-- The right brace character. -/
def rbrace : Char := Char.ofNat 125

/-- The single-quote character. -/
def squote : Char := Char.ofNat 39

/-- The backslash character. -/
def bslash : Char := Char.ofNat 92

/-- The whitespace characters stripped by Python str.strip() and matched by
regex \s (restricted to ASCII, which is all this plugin ever feeds it). -/
def pyWs (c : Char) : Bool :=
  c = ' ' || c = '\t' || c = '\n' || c = '\r' || c = Char.ofNat 11 || c = Char.ofNat 12

/-- Python str.strip() on a character list. -/
def pyStripL (cs : List Char) : List Char :=
  ((cs.dropWhile pyWs).reverse.dropWhile pyWs).reverse

/-- Python str.strip(). -/
def pyStrip (s : String) : String := String.mk (pyStripL s.data)

/-- ASCII lowercase letter, the regex class [a-z]. -/
def isLowerAZ (c : Char) : Bool := 'a' ≤ c && c ≤ 'z'

/-- ASCII uppercase letter, the regex class [A-Z]. -/
def isUpperAZ (c : Char) : Bool := 'A' ≤ c && c ≤ 'Z'

/-- ASCII digit, the regex class \d (as used on this plugin's inputs). -/
def isDigit09 (c : Char) : Bool := '0' ≤ c && c ≤ '9'

/-- Word character, the regex class \w: letters, digits, underscore. -/
def isWordChar (c : Char) : Bool := isLowerAZ c || isUpperAZ c || isDigit09 c || c = '_'

/-- First character of the JavaScript identifier pattern [a-zA-Z_$]. -/
def isIdStart (c : Char) : Bool := isLowerAZ c || isUpperAZ c || c = '_' || c = '$'

/-- Later characters of the JavaScript identifier pattern [a-zA-Z_$0-9]. -/
def isIdChar (c : Char) : Bool := isIdStart c || isDigit09 c

/-! ## splitByCommas (src/bespoke_docs.py lines 63-111)

The splitter walks the string with three pieces of state: the matching
closer for the currently open section, whether a section is open, and whether
the previous character was a backslash seen inside a section. -/

/-- The closer paired with a section opener: the openQuotes / closeQuotes
tables of splitByCommas (quote matches itself, brackets match their partner). -/
def closerFor (c : Char) : Option Char :=
  if c = '"' then some '"'
  else if c = squote then some squote
  else if c = '<' then some '>'
  else if c = '(' then some ')'
  else if c = lbrace then some rbrace
  else none

/-- The character-by-character loop of splitByCommas.  State:
`insideQ` = insideQuotes, `mq` = matchingQuote, `lit` = nextIsLiteral,
`cur` = the current token, `out` = the finished tokens. -/
def splitByCommasAux : List Char → Bool → Char → Bool → List Char →
    List (List Char) → List (List Char)
  | [], _, _, _, cur, out => out ++ [pyStripL cur]
  | c :: cs, insideQ, mq, lit, cur, out =>
    if lit then
      splitByCommasAux cs insideQ mq false (cur ++ [c]) out
    else if insideQ then
      if c = bslash then
        splitByCommasAux cs insideQ mq true cur out
      else
        splitByCommasAux cs (if c = mq then false else insideQ) mq false (cur ++ [c]) out
    else
      if c = ',' then
        splitByCommasAux cs false mq false [] (out ++ [pyStripL cur])
      else
        match closerFor c with
        | some m => splitByCommasAux cs true m false (cur ++ [c]) out
        | none => splitByCommasAux cs false mq false (cur ++ [c]) out

/-- splitByCommas: split a string by commas that are not inside quotes or
brackets.  Empty input yields the empty list. -/
def splitByCommas (s : String) : List String :=
  if s = "" then []
  else (splitByCommasAux s.data false ' ' false [] []).map String.mk

/-! Spec-side splitter for claim C2.  The claim states that a backslash
escapes the following character *unconditionally* (so an escaped quote can
never open or close a quoted section).  This machine follows those words:
the escape state is entered from every state, and the escaped character is
copied verbatim without being interpreted. -/

/-- Claim C2's splitter: identical to splitByCommasAux except that a
backslash always escapes the next character, in every state. -/
def splitUncondAux : List Char → Bool → Char → Bool → List Char →
    List (List Char) → List (List Char)
  | [], _, _, _, cur, out => out ++ [pyStripL cur]
  | c :: cs, insideQ, mq, lit, cur, out =>
    if lit then
      splitUncondAux cs insideQ mq false (cur ++ [c]) out
    else if c = bslash then
      splitUncondAux cs insideQ mq true (cur ++ [c]) out
    else if insideQ then
      splitUncondAux cs (if c = mq then false else insideQ) mq false (cur ++ [c]) out
    else
      if c = ',' then
        splitUncondAux cs false mq false [] (out ++ [pyStripL cur])
      else
        match closerFor c with
        | some m => splitUncondAux cs true m false (cur ++ [c]) out
        | none => splitUncondAux cs false mq false (cur ++ [c]) out

/-- The splitter claim C2 describes, with its unconditional backslash escape. -/
def splitUncondSpec (s : String) : List String :=
  if s = "" then []
  else (splitUncondAux s.data false ' ' false [] []).map String.mk

/-! Amended splitter spec: a state machine written from the amended wording.
At top level a comma is a boundary, an opener starts a section, and every
other character (a backslash included) is literal text; inside a section a
backslash escapes the following character (the backslash itself is dropped),
the matching closer ends the section, and other characters are copied. -/

/-- States of the amended splitter description. -/
inductive SplitState
  | top
  | insec (close : Char)
  | esc (close : Char)
  deriving DecidableEq

/-- The amended splitter machine. -/
def splitAmendedAux : List Char → SplitState → List Char →
    List (List Char) → List (List Char)
  | [], _, cur, out => out ++ [pyStripL cur]
  | c :: cs, .top, cur, out =>
    if c = ',' then
      splitAmendedAux cs .top [] (out ++ [pyStripL cur])
    else
      match closerFor c with
      | some m => splitAmendedAux cs (.insec m) (cur ++ [c]) out
      | none => splitAmendedAux cs .top (cur ++ [c]) out
  | c :: cs, .insec m, cur, out =>
    if c = bslash then
      splitAmendedAux cs (.esc m) cur out
    else if c = m then
      splitAmendedAux cs .top (cur ++ [c]) out
    else
      splitAmendedAux cs (.insec m) (cur ++ [c]) out
  | c :: cs, .esc m, cur, out =>
    splitAmendedAux cs (.insec m) (cur ++ [c]) out

/-- The splitter described by the amended claim C2. -/
def splitAmendedSpec (s : String) : List String :=
  if s = "" then []
  else (splitAmendedAux s.data .top [] []).map String.mk

/-- The code's splitter and the amended description coincide, state by state. -/
theorem splitByCommasAux_eq_amended (cs : List Char) :
    ∀ (mq : Char) (cur : List Char) (out : List (List Char)),
      (splitByCommasAux cs false mq false cur out = splitAmendedAux cs .top cur out) ∧
      (splitByCommasAux cs true mq false cur out = splitAmendedAux cs (.insec mq) cur out) ∧
      (splitByCommasAux cs true mq true cur out = splitAmendedAux cs (.esc mq) cur out) := by
  induction cs with
  | nil => intro mq cur out; refine ⟨rfl, rfl, rfl⟩
  | cons c cs ih =>
    intro mq cur out
    have ih1 : ∀ m cu o, splitByCommasAux cs false m false cu o =
        splitAmendedAux cs .top cu o := fun m cu o => (ih m cu o).1
    have ih2 : ∀ m cu o, splitByCommasAux cs true m false cu o =
        splitAmendedAux cs (.insec m) cu o := fun m cu o => (ih m cu o).2.1
    have ih3 : ∀ m cu o, splitByCommasAux cs true m true cu o =
        splitAmendedAux cs (.esc m) cu o := fun m cu o => (ih m cu o).2.2
    refine ⟨?_, ?_, ?_⟩
    · by_cases hc : c = ','
      · simp [splitByCommasAux, splitAmendedAux, hc, ih1]
      · cases h : closerFor c with
        | some m => simp [splitByCommasAux, splitAmendedAux, hc, h, ih2]
        | none => simp [splitByCommasAux, splitAmendedAux, hc, h, ih1]
    · by_cases hb : c = bslash
      · simp [splitByCommasAux, splitAmendedAux, hb, ih3]
      · by_cases hm : c = mq
        · subst hm; simp [splitByCommasAux, splitAmendedAux, hb, ih1]
        · simp [splitByCommasAux, splitAmendedAux, hb, hm, ih2]
    · simp [splitByCommasAux, splitAmendedAux, ih2]

/-! ## Raw segmentation and the round-trip property (claim C8)

`rawSegAux` walks the same section-tracking machine as splitByCommas but
copies every character verbatim (backslashes included) and does not strip,
so its segments are literally the text between top-level commas. -/

/-- Verbatim segmentation of a string at top-level commas. -/
def rawSegAux : List Char → SplitState → List Char →
    List (List Char) → List (List Char)
  | [], _, cur, out => out ++ [cur]
  | c :: cs, .top, cur, out =>
    if c = ',' then
      rawSegAux cs .top [] (out ++ [cur])
    else
      match closerFor c with
      | some m => rawSegAux cs (.insec m) (cur ++ [c]) out
      | none => rawSegAux cs .top (cur ++ [c]) out
  | c :: cs, .insec m, cur, out =>
    if c = bslash then rawSegAux cs (.esc m) (cur ++ [c]) out
    else if c = m then rawSegAux cs .top (cur ++ [c]) out
    else rawSegAux cs (.insec m) (cur ++ [c]) out
  | c :: cs, .esc m, cur, out =>
    rawSegAux cs (.insec m) (cur ++ [c]) out

/-- The verbatim segments of a string between its top-level commas. -/
def rawSegments (s : String) : List String :=
  (rawSegAux s.data .top [] []).map String.mk

/-- Does the section machine end at top level (every opened section closed,
no pending escape)?  This is the formal reading of "no unmatched quote or
bracket characters". -/
def balancedAux : List Char → SplitState → Bool
  | [], st => st = .top
  | c :: cs, .top =>
    if c = ',' then balancedAux cs .top
    else
      match closerFor c with
      | some m => balancedAux cs (.insec m)
      | none => balancedAux cs .top
  | c :: cs, .insec m =>
    if c = bslash then balancedAux cs (.esc m)
    else if c = m then balancedAux cs .top
    else balancedAux cs (.insec m)
  | _ :: cs, .esc m => balancedAux cs (.insec m)

/-- The string has no unmatched quote or bracket characters. -/
def balancedStr (s : String) : Bool := balancedAux s.data .top

/-- Does the scan avoid backslashes inside sections?  Only such backslashes
are interpreted (and dropped) by splitByCommas. -/
def cleanEscAux : List Char → SplitState → Bool
  | [], _ => true
  | c :: cs, .top =>
    if c = ',' then cleanEscAux cs .top
    else
      match closerFor c with
      | some m => cleanEscAux cs (.insec m)
      | none => cleanEscAux cs .top
  | c :: cs, .insec m =>
    if c = bslash then false
    else if c = m then cleanEscAux cs .top
    else cleanEscAux cs (.insec m)
  | _ :: _, .esc _ => false

/-- No backslash occurs inside a quoted or bracketed section of the string. -/
def noSectionEscapes (s : String) : Bool := cleanEscAux s.data .top

/-- Join a list of character lists with a separator. -/
def joinL (sep : List Char) : List (List Char) → List Char
  | [] => []
  | [x] => x
  | x :: y :: t => x ++ sep ++ joinL sep (y :: t)

/-- Join a list of strings with a separator, as Python sep.join does. -/
def joinWith (sep : String) : List String → String
  | [] => ""
  | [x] => x
  | x :: y :: t => x ++ sep ++ joinWith sep (y :: t)

theorem joinL_cons_ne (sep : List Char) (x : List Char) {rest : List (List Char)}
    (h : rest ≠ []) : joinL sep (x :: rest) = x ++ sep ++ joinL sep rest := by
  cases rest with
  | nil => exact absurd rfl h
  | cons y t => rfl

theorem joinL_append_last (sep : List Char) (xs : List (List Char))
    (a t : List Char) :
    joinL sep (xs ++ [a ++ t]) = joinL sep (xs ++ [a]) ++ t := by
  induction xs with
  | nil => simp [joinL]
  | cons x xs ih =>
    have h1 : xs ++ [a ++ t] ≠ [] := by simp
    have h2 : xs ++ [a] ≠ [] := by simp
    rw [List.cons_append, joinL_cons_ne sep x h1, List.cons_append,
      joinL_cons_ne sep x h2, ih]
    simp

theorem joinL_append_empty_seg (sep : List Char) (ys : List (List Char))
    (b : List Char) (h : ys ≠ []) :
    joinL sep (ys ++ [b]) = joinL sep ys ++ sep ++ b := by
  induction ys with
  | nil => exact absurd rfl h
  | cons y ys ih =>
    cases ys with
    | nil => simp [joinL]
    | cons z t =>
      have hne : (z :: t) ++ [b] ≠ [] := by simp
      rw [List.cons_append, joinL_cons_ne sep y hne, ih (by simp),
        joinL_cons_ne sep y (by simp)]
      simp

/-- Joining the verbatim segments with a comma reconstructs the input. -/
theorem rawSegAux_join (cs : List Char) :
    ∀ (st : SplitState) (cur : List Char) (out : List (List Char)),
      joinL [','] (rawSegAux cs st cur out) = joinL [','] (out ++ [cur]) ++ cs := by
  induction cs with
  | nil => intro st cur out; simp [rawSegAux]
  | cons c cs ih =>
    intro st cur out
    have copy : ∀ (st2 : SplitState),
        joinL [','] (rawSegAux cs st2 (cur ++ [c]) out) =
          joinL [','] (out ++ [cur]) ++ c :: cs := by
      intro st2
      rw [ih st2 (cur ++ [c]) out, joinL_append_last [','] out cur [c]]
      simp
    cases st with
    | top =>
      by_cases hc : c = ','
      · subst hc
        simp only [rawSegAux, eq_self_iff_true, if_true]
        rw [ih .top [] (out ++ [cur])]
        rw [joinL_append_empty_seg [','] (out ++ [cur]) [] (by simp)]
        simp
      · simp only [rawSegAux, if_neg hc]
        cases h : closerFor c with
        | some m => exact copy _
        | none => exact copy _
    | insec m =>
      by_cases hb : c = bslash
      · simp only [rawSegAux, if_pos hb]; subst hb; exact copy _
      · by_cases hm : c = m
        · simp only [rawSegAux, if_neg hb, if_pos hm]; exact copy _
        · simp only [rawSegAux, if_neg hb, if_neg hm]; exact copy _
    | esc m => simpa only [rawSegAux] using copy _

/-- When no backslash occurs inside a section, splitByCommas returns exactly
the per-segment stripped verbatim segments. -/
theorem splitAux_eq_stripped_rawSeg (cs : List Char) :
    ∀ (cur : List Char) (out : List (List Char)),
      (cleanEscAux cs .top = true →
        ∀ mq, splitByCommasAux cs false mq false cur (out.map pyStripL) =
          (rawSegAux cs .top cur out).map pyStripL) ∧
      (∀ m, cleanEscAux cs (.insec m) = true →
        splitByCommasAux cs true m false cur (out.map pyStripL) =
          (rawSegAux cs (.insec m) cur out).map pyStripL) := by
  induction cs with
  | nil =>
    intro cur out
    constructor
    · intro _ mq; simp [splitByCommasAux, rawSegAux]
    · intro m _; simp [splitByCommasAux, rawSegAux]
  | cons c cs ih =>
    intro cur out
    constructor
    · intro hclean mq
      by_cases hc : c = ','
      · subst hc
        simp only [cleanEscAux, if_pos rfl] at hclean
        simp only [splitByCommasAux, rawSegAux, if_pos rfl]
        have := (ih [] (out ++ [cur])).1 hclean mq
        simpa using this
      · simp only [splitByCommasAux, rawSegAux, if_neg hc]
        simp only [cleanEscAux, if_neg hc] at hclean
        cases h : closerFor c with
        | some m =>
          simp only [h] at hclean ⊢
          exact (ih (cur ++ [c]) out).2 m hclean
        | none =>
          simp only [h] at hclean ⊢
          exact (ih (cur ++ [c]) out).1 hclean mq
    · intro m hclean
      by_cases hb : c = bslash
      · subst hb
        simp only [cleanEscAux, if_pos rfl] at hclean
        exact absurd hclean (by simp)
      · simp only [cleanEscAux, if_neg hb] at hclean
        simp only [splitByCommasAux, rawSegAux, if_neg hb]
        by_cases hm : c = m
        · subst hm
          simp only [if_pos rfl] at hclean ⊢
          have := (ih (cur ++ [c]) out).1 hclean c
          simpa using this
        · simp only [if_neg hm] at hclean ⊢
          exact (ih (cur ++ [c]) out).2 m hclean

/-- Concatenation of two String.mk values concatenates the character lists. -/
theorem string_mk_append (a b : List Char) :
    String.mk a ++ String.mk b = String.mk (a ++ b) := rfl

/-- joinWith on wrapped character lists is joinL on the lists. -/
theorem joinWith_mk (sep : List Char) (xs : List (List Char)) :
    joinWith (String.mk sep) (xs.map String.mk) = String.mk (joinL sep xs) := by
  induction xs with
  | nil => rfl
  | cons x t ih =>
    cases t with
    | nil => rfl
    | cons y u =>
      show String.mk x ++ String.mk sep ++
          joinWith (String.mk sep) ((y :: u).map String.mk) = _
      rw [ih, string_mk_append, string_mk_append]
      rfl

/-- Removing every whitespace character; two strings that differ only in
whitespace agree after this map. -/
def stripAllWs (s : String) : String :=
  String.mk (s.data.filter (fun c => !pyWs c))

/-- Claim C2, counterexample: splitByCommas does NOT treat a backslash as an
unconditional escape.  On the input backslash-quote-comma-space-a the claimed
splitter (escape everywhere, so the quote cannot open a section) yields two
tokens, while the code lets the quote open a section, swallowing the comma,
and yields one token. -/
theorem c2_counterexample :
    splitByCommas "\\\", a" ≠ splitUncondSpec "\\\", a" ∧
    (splitByCommas "\\\", a").length = 1 ∧
    (splitUncondSpec "\\\", a").length = 2 := by decide

/-- Claim C2 (amended): split recognizes a token boundary only at commas not
nested inside a bracket/quote section; a backslash escapes the following
character only while inside such a section (the backslash itself is dropped
and the escaped character copied without being interpreted, so an escaped
closing quote cannot close the section), while at top level a backslash is an
ordinary character; and the documented example splits as stated. -/
theorem c2_amended :
    (∀ s, splitByCommas s = splitAmendedSpec s) ∧
    splitByCommas "foo, bar(baz, quux), fwip = \"hey, hi\"" =
      ["foo", "bar(baz, quux)", "fwip = \"hey, hi\""] := by
  constructor
  · intro s
    unfold splitByCommas splitAmendedSpec
    by_cases h : s = ""
    · simp [h]
    · simp only [if_neg h]
      rw [(splitByCommasAux_eq_amended s.data ' ' [] []).1]
  · decide

/-- Claim C8, counterexample: the round-trip property fails on a balanced
input containing a backslash inside quotes (the backslash is dropped, a
non-whitespace difference). -/
theorem c8_counterexample :
    balancedStr "\"a\\b\"" = true ∧
    stripAllWs (joinWith ", " (splitByCommas "\"a\\b\"")) ≠
      stripAllWs "\"a\\b\"" := by decide

/-- Claim C8 (amended): for strings with no unmatched quote/bracket characters
and no backslash inside a quoted/bracketed section, re-joining split(s) with
", " reconstructs s up to whitespace trimming: s is exactly the comma-join of
its verbatim top-level segments, and the re-join is the comma-space-join of
those same segments, each trimmed. -/
theorem c8_amended (s : String) (h1 : balancedStr s = true)
    (h2 : noSectionEscapes s = true) :
    joinWith "," (rawSegments s) = s ∧
    joinWith ", " (splitByCommas s) =
      joinWith ", " ((rawSegments s).map pyStrip) := by
  constructor
  · have hj : joinWith "," (rawSegments s) =
        String.mk (joinL [','] (rawSegAux s.data .top [] [])) := by
      have : ("," : String) = String.mk [','] := rfl
      rw [rawSegments, this, joinWith_mk]
    rw [hj, rawSegAux_join s.data .top [] []]
    show String.mk (joinL [','] [[]] ++ s.data) = s
    simp [joinL]
  · by_cases h : s = ""
    · subst h; rfl
    · have hsplit : splitByCommas s = (rawSegments s).map pyStrip := by
        unfold splitByCommas rawSegments
        simp only [if_neg h]
        have := (splitAux_eq_stripped_rawSeg s.data [] []).1 h2 ' '
        simp only [List.map_nil] at this
        rw [this, List.map_map, List.map_map]
        rfl
      rw [hsplit]

/-- Witness for c8_amended at a concrete balanced, escape-free input. -/
theorem c8_amended_witness :
    joinWith "," (rawSegments "foo, bar(baz, qux)") = "foo, bar(baz, qux)" ∧
    joinWith ", " (splitByCommas "foo, bar(baz, qux)") =
      joinWith ", " ((rawSegments "foo, bar(baz, qux)").map pyStrip) :=
  c8_amended "foo, bar(baz, qux)" (by decide) (by decide)

/-! ## Plugin settings and notation rules

The per-invocation configuration record.  Fields default to the value the
Python dict .get returns when the key is unset; keys whose unset value differs
between call sites (function_description, return_description, align_tags) are
kept as Option so each call site can apply its own default, exactly as the
source does. -/

/-- A rule of the configured notation-rule table.  The source represents a
rule as a dict with optional keys; a regex-matching rule carries an arbitrary
user-written pattern, modelled here by its re.search predicate. -/
structure NameRule where
  /-- the literal name-start pattern of a rule keyed on a name beginning -/
  leadPat : Option String := none
  /-- the free-search predicate of a regex-keyed rule -/
  regexPat : Option (String → Bool) := none
  /-- the implied type name -/
  type? : Option String := none
  /-- extra tag lines contributed by the rule -/
  tags? : Option (List String) := none

/-- Values the align_tags setting can take. -/
inductive AlignVal
  | deep
  | shallow
  | boolTrue
  | other
  deriving DecidableEq

/-- Values the spacer_between_sections setting can take. -/
inductive SpacerVal
  | sTrue
  | afterDescription
  | off
  deriving DecidableEq

/-- The BespokeDocs.sublime-settings record. -/
structure PluginSettings where
  simple_mode : Bool := false
  function_description : Option Bool := none
  autoadd_method_tag : Bool := false
  extra_tags_go_after : Bool := false
  extra_tags : List String := []
  prefer_param : Bool := false
  param_description : Bool := false
  param_name : Bool := false
  return_tag : Option String := none
  return_description : Option Bool := none
  align_tags : Option AlignVal := none
  min_spaces_between_columns : Nat := 1
  per_section_indent : Bool := false
  spacer_between_sections : SpacerVal := .off
  /-- the ordered notation-rule table (the notation_map key) -/
  rule_map : List NameRule := []
  lower_case_primitives : Bool := false
  short_primitives : Bool := false
  newline_after_block : Bool := false
  indentation_spaces : Int := 1
  override_js_var : Option String := none

/-- ASCII lowercasing of one character (Python str.lower on this input). -/
def toLowerAZ (c : Char) : Char :=
  if isUpperAZ c then Char.ofNat (c.toNat + 32) else c

/-- ASCII lowercasing of a string. -/
def pyLowerStr (s : String) : String := String.mk (s.data.map toLowerAZ)

/-! ## getMatchingNotations / guessTypeFromName
(src/bespoke_docs.py lines 522-547)

checkMatch builds, for a rule keyed on a literal name beginning p, the regex
re.escape(p) and appends the boundary group [A-Z_]-or-end when
re.match(".*[a-z]", p) succeeds, i.e. when p contains a lowercase ASCII
letter (before any newline, since the dot does not cross newlines); the
resulting anchored match is: name starts with the literal p, followed by the
boundary when required.  A regex-keyed rule matches by free re.search. -/

/-- Does re.match(".*[a-z]", p) succeed: a lowercase letter occurs in p
before any newline. -/
def ruleContainsLower (p : String) : Bool :=
  (p.data.takeWhile (· ≠ '\n')).any isLowerAZ

/-- BespokeDocsParser.getMatchingNotations.checkMatch. -/
def checkMatch (rule : NameRule) (name : String) : Bool :=
  match rule.leadPat with
  | some p =>
    if ruleContainsLower p then
      p.data.isPrefixOf name.data &&
        (match name.data.drop p.data.length with
         | [] => true
         | c :: _ => isUpperAZ c || c = '_')
    else
      p.data.isPrefixOf name.data
  | none =>
    match rule.regexPat with
    | some f => f name
    | none => false

/-- BespokeDocsParser.getMatchingNotations: the rules of the table that match
the name, in table order. -/
def getMatchingRules (ps : PluginSettings) (name : String) : List NameRule :=
  ps.rule_map.filter (fun r => checkMatch r name)

/-- The string-valued entries of the JavaScript dialect settings dict, used
to resolve an implied type name (rule type "bool" resolves to "Boolean").
The two boolean-valued entries (curlyTypes, typeInfo) are modelled as the
constants true where they are read. -/
def jsTypeLookup (override : Option String) (key : String) : Option String :=
  if key = "typeTag" then
    some (match override with
      | some t => if t = "" then "type" else t
      | none => "type")
  else if key = "varIdentifier" || key = "fnIdentifier" then
    some "[a-zA-Z_$][a-zA-Z_$0-9]*"
  else if key = "commentCloser" then some " */"
  else if key = "bool" then some "Boolean"
  else if key = "function" then some "Function"
  else none

/-- Does re.match("(?:is|has)[A-Z_]", name) succeed. -/
def isHasFallback (name : String) : Bool :=
  match name.data with
  | 'i' :: 's' :: c :: _ => isUpperAZ c || c = '_'
  | 'h' :: 'a' :: 's' :: c :: _ => isUpperAZ c || c = '_'
  | _ => false

/-- The names matched by re.match("^(?:cb|callback|done|next|fn)$", name). -/
def cbNames : List String := ["cb", "callback", "done", "next", "fn"]

/-- The fallback of guessTypeFromName when the first matching rule carries no
implied type, or no rule matches: is/has names give the dialect bool name,
callback-style names the dialect function name. -/
def guessFallbackResult (name : String) : Option String :=
  if isHasFallback name then some "Boolean"
  else if name ∈ cbNames then some "Function"
  else none

/-- The body of BespokeDocsParser.guessTypeFromName given the match list:
the first matching rule's implied type resolved through the dialect settings
table, else the fallbacks (Python False becomes none). -/
def guessFromRules (override : Option String) (rules : List NameRule)
    (name : String) : Option String :=
  match rules with
  | r :: _ =>
    match r.type? with
    | some t => some ((jsTypeLookup override t).getD t)
    | none => guessFallbackResult name
  | [] => guessFallbackResult name

/-- BespokeDocsParser.guessTypeFromName (with the base-class match list). -/
def guessTypeFromName (ps : PluginSettings) (name : String) : Option String :=
  guessFromRules ps.override_js_var (getMatchingRules ps name) name

/-! ## is_numeric (src/bespoke_docs.py lines 44-49)

is_numeric(val) is "float(val) does not raise".  CPython float() strips
surrounding whitespace, takes an optional sign, then an infinity/nan word
(case-insensitive) or a decimal literal with optional fraction and exponent,
where underscores may appear between digits. -/

/-- Digit run with optional underscores between digits: consumes
digit (digit | underscore digit)* and returns the rest. -/
def digitsURest : List Char → List Char
  | c :: cs =>
    if isDigit09 c then digitsURest cs
    else if c = '_' then
      match cs with
      | d :: ds => if isDigit09 d then digitsURest ds else c :: cs
      | [] => c :: cs
    else c :: cs
  | [] => []

/-- Underscore-grouped digit run; none when no leading digit. -/
def digitsU : List Char → Option (List Char)
  | c :: cs => if isDigit09 c then some (digitsURest cs) else none
  | [] => none

/-- Case-insensitive comparison with a lowercase word. -/
def lowerEq (cs : List Char) (word : String) : Bool :=
  cs.map toLowerAZ = word.data

/-- The optional exponent part followed by end of input. -/
def pyFloatExpEnd : List Char → Bool
  | [] => true
  | c :: cs =>
    if c = 'e' || c = 'E' then
      let cs2 := match cs with
        | d :: ds => if d = '+' || d = '-' then ds else cs
        | [] => []
      match digitsU cs2 with
      | some [] => true
      | _ => false
    else false

/-- The decimal-literal body of float(): mantissa then optional exponent,
consuming the whole input. -/
def pyFloatBody (cs : List Char) : Bool :=
  match digitsU cs with
  | some rest =>
    match rest with
    | '.' :: rest2 =>
      (match digitsU rest2 with
       | some rest3 => pyFloatExpEnd rest3
       | none => pyFloatExpEnd rest2)
    | _ => pyFloatExpEnd rest
  | none =>
    match cs with
    | '.' :: rest =>
      (match digitsU rest with
       | some rest2 => pyFloatExpEnd rest2
       | none => false)
    | _ => false

/-- is_numeric: does float(val) succeed. -/
def isNumeric (val : String) : Bool :=
  let cs := pyStripL val.data
  let cs := match cs with
    | c :: t => if c = '+' || c = '-' then t else cs
    | [] => []
  lowerEq cs "inf" || lowerEq cs "infinity" || lowerEq cs "nan" || pyFloatBody cs

/-! ## guessTypeFromValue (src/bespoke_docs.py lines 718-739)

Indexing val[0] on an empty value raises IndexError, hence the Except. -/

/-- Does re.match("RegExp\\b|\\/[^\\/]", val) succeed: val starts with the
word RegExp at a word boundary, or with a slash followed by a non-slash. -/
def regExpMatch (val : String) : Bool :=
  (match val.data with
   | 'R' :: 'e' :: 'g' :: 'E' :: 'x' :: 'p' :: rest =>
     match rest with
     | [] => true
     | c :: _ => !isWordChar c
   | _ => false) ||
  (match val.data with
   | '/' :: c :: _ => c ≠ '/'
   | _ => false)

/-- val.find("=>") > -1. -/
def hasArrow : List Char → Bool
  | '=' :: '>' :: _ => true
  | _ :: cs => hasArrow cs
  | [] => false

/-- re.search("new (identifier)", val): the first occurrence of the word new,
a space, and an identifier; the identifier is the captured group. -/
def searchNewIdent : List Char → Option String
  | [] => none
  | c :: cs =>
    match c :: cs with
    | 'n' :: 'e' :: 'w' :: ' ' :: d :: rest =>
      if isIdStart d then some (String.mk (d :: rest.takeWhile isIdChar))
      else searchNewIdent cs
    | _ => searchNewIdent cs

/-- BespokeDocsJavascript.guessTypeFromValue. -/
def guessTypeFromValueJS (ps : PluginSettings) (val : String) :
    Except PyErr (Option String) :=
  let lower := ps.lower_case_primitives
  let short := ps.short_primitives
  if isNumeric val then .ok (some (if lower then "number" else "Number"))
  else
    match val.data with
    | [] => .error .indexError
    | c :: _ =>
      if c = '"' || c = squote then
        .ok (some (if lower then "string" else "String"))
      else if c = '[' then .ok (some "Array")
      else if c = lbrace then .ok (some "Object")
      else if val = "true" || val = "false" then
        .ok (some
          (let r := if short then "Bool" else "Boolean"
           if lower then pyLowerStr r else r))
      else if regExpMatch val then .ok (some "RegExp")
      else if hasArrow val.data then
        .ok (some (if lower then "function" else "Function"))
      else if val.data.take 4 = "new ".data then .ok (searchNewIdent val.data)
      else .ok none

/-! ## Claim C4 -/

/-- Claim C4: guessTypeFromValue applies its heuristics in the stated order
(numeric to Number, quoted to String, leading bracket to Array, leading brace
to Object, true/false to Boolean, RegExp or a bare slash pattern to RegExp,
arrow syntax to Function, new-Identifier to the identifier, otherwise none);
the documented concrete examples evaluate as stated; lower_case_primitives
lowercases only Number/String/Boolean/Function and never Array/Object; and
short_primitives renders Boolean as Bool when not lowered. -/
theorem c4_guessTypeFromValue (ps : PluginSettings) (val : String) :
    (guessTypeFromValueJS {} "1" = .ok (some "Number")) ∧
    (guessTypeFromValueJS {} "\"a\"" = .ok (some "String")) ∧
    (guessTypeFromValueJS {} "true" = .ok (some "Boolean")) ∧
    (guessTypeFromValueJS {} "[1,2]" = .ok (some "Array")) ∧
    (guessTypeFromValueJS {} "\x7ba:1\x7d" = .ok (some "Object")) ∧
    (guessTypeFromValueJS {} "new Foo()" = .ok (some "Foo")) ∧
    (isNumeric val = true →
      guessTypeFromValueJS ps val =
        .ok (some (if ps.lower_case_primitives then "number" else "Number"))) ∧
    (isNumeric val = false →
      (val.data.head? = some '"' ∨ val.data.head? = some squote) →
      guessTypeFromValueJS ps val =
        .ok (some (if ps.lower_case_primitives then "string" else "String"))) ∧
    (isNumeric val = false → val.data.head? = some '[' →
      guessTypeFromValueJS ps val = .ok (some "Array")) ∧
    (isNumeric val = false → val.data.head? = some lbrace →
      guessTypeFromValueJS ps val = .ok (some "Object")) ∧
    (guessTypeFromValueJS ps "true" =
      .ok (some (if ps.lower_case_primitives then
          (if ps.short_primitives then "bool" else "boolean")
        else if ps.short_primitives then "Bool" else "Boolean"))) ∧
    (guessTypeFromValueJS ps "false" =
      .ok (some (if ps.lower_case_primitives then
          (if ps.short_primitives then "bool" else "boolean")
        else if ps.short_primitives then "Bool" else "Boolean"))) ∧
    (guessTypeFromValueJS ps "/abc/" = .ok (some "RegExp")) ∧
    (∀ c, isNumeric val = false → val.data.head? = some c →
      c ≠ '"' → c ≠ squote → c ≠ '[' → c ≠ lbrace →
      val ≠ "true" → val ≠ "false" → regExpMatch val = false →
      hasArrow val.data = true →
      guessTypeFromValueJS ps val =
        .ok (some (if ps.lower_case_primitives then "function" else "Function"))) ∧
    (∀ c, isNumeric val = false → val.data.head? = some c →
      c ≠ '"' → c ≠ squote → c ≠ '[' → c ≠ lbrace →
      val ≠ "true" → val ≠ "false" → regExpMatch val = false →
      hasArrow val.data = false → val.data.take 4 ≠ "new ".data →
      guessTypeFromValueJS ps val = .ok none) := by
  have hps : ∀ v, guessTypeFromValueJS ps v =
      guessTypeFromValueJS
        { lower_case_primitives := ps.lower_case_primitives,
          short_primitives := ps.short_primitives } v := fun _ => rfl
  refine ⟨by decide, by decide, by decide, by decide, by decide, by decide,
    ?_, ?_, ?_, ?_, ?_, ?_, ?_, ?_, ?_⟩
  · intro h
    simp [guessTypeFromValueJS, h]
  · intro h1 h2
    cases hd : val.data with
    | nil => simp [hd] at h2
    | cons c t =>
      rcases h2 with h2 | h2 <;>
      · rw [hd] at h2
        simp only [List.head?] at h2
        injection h2 with h2
        subst h2
        simp [guessTypeFromValueJS, h1, hd, squote]
  · intro h1 h2
    cases hd : val.data with
    | nil => simp [hd] at h2
    | cons c t =>
      rw [hd] at h2
      simp only [List.head?] at h2
      injection h2 with h2
      subst h2
      simp [guessTypeFromValueJS, h1, hd, squote, lbrace]
  · intro h1 h2
    cases hd : val.data with
    | nil => simp [hd] at h2
    | cons c t =>
      rw [hd] at h2
      simp only [List.head?] at h2
      injection h2 with h2
      subst h2
      simp [guessTypeFromValueJS, h1, hd, squote, lbrace]
  · rw [hps]
    cases ps.lower_case_primitives <;> cases ps.short_primitives <;> decide
  · rw [hps]
    cases ps.lower_case_primitives <;> cases ps.short_primitives <;> decide
  · rw [hps]
    cases ps.lower_case_primitives <;> cases ps.short_primitives <;> decide
  · intro c h1 h2 h3 h4 h5 h6 h7 h8 h9 h10
    cases hd : val.data with
    | nil => simp [hd] at h2
    | cons c2 t =>
      rw [hd] at h2
      simp only [List.head?] at h2
      injection h2 with h2
      subst h2
      rw [hd] at h10
      simp [guessTypeFromValueJS, h1, hd, h3, h4, h5, h6, h7, h8, h9, h10]
  · intro c h1 h2 h3 h4 h5 h6 h7 h8 h9 h10 h11
    cases hd : val.data with
    | nil => simp [hd] at h2
    | cons c2 t =>
      rw [hd] at h2
      simp only [List.head?] at h2
      injection h2 with h2
      subst h2
      rw [hd] at h10 h11
      simp [guessTypeFromValueJS, h1, hd, h3, h4, h5, h6, h7, h8, h9, h10, h11]
      intro hc2 htake
      exfalso
      apply h11
      have h4eq : (4 : Nat) = 3 + 1 := rfl
      rw [h4eq, List.take_succ_cons, hc2, htake]

/-- Witness for c4_guessTypeFromValue: every hypothesis-guarded branch is
realized at a concrete input. -/
theorem c4_guessTypeFromValue_witness :
    (guessTypeFromValueJS { lower_case_primitives := true } "1" =
      .ok (some "number")) ∧
    (guessTypeFromValueJS { lower_case_primitives := true } "\"a\"" =
      .ok (some "string")) ∧
    (guessTypeFromValueJS { lower_case_primitives := true } "[1]" =
      .ok (some "Array")) ∧
    (guessTypeFromValueJS { lower_case_primitives := true } "\x7ba\x7d" =
      .ok (some "Object")) ∧
    (guessTypeFromValueJS { lower_case_primitives := true } "x => y" =
      .ok (some "function")) ∧
    (guessTypeFromValueJS {} "bar" = .ok none) := by
  refine ⟨?_, ?_, ?_, ?_, ?_, ?_⟩
  · exact (c4_guessTypeFromValue { lower_case_primitives := true } "1").2.2.2.2.2.2.1
      (by decide)
  · exact (c4_guessTypeFromValue { lower_case_primitives := true }
      "\"a\"").2.2.2.2.2.2.2.1 (by decide) (by decide)
  · exact (c4_guessTypeFromValue { lower_case_primitives := true }
      "[1]").2.2.2.2.2.2.2.2.1 (by decide) (by decide)
  · exact (c4_guessTypeFromValue { lower_case_primitives := true }
      "\x7ba\x7d").2.2.2.2.2.2.2.2.2.1 (by decide) (by decide)
  · exact (c4_guessTypeFromValue { lower_case_primitives := true }
      "x => y").2.2.2.2.2.2.2.2.2.2.2.2.2.1 'x' (by decide) (by decide)
      (by decide) (by decide) (by decide) (by decide) (by decide) (by decide)
      (by decide) (by decide)
  · exact (c4_guessTypeFromValue {} "bar").2.2.2.2.2.2.2.2.2.2.2.2.2.2 'b'
      (by decide) (by decide) (by decide) (by decide) (by decide) (by decide)
      (by decide) (by decide) (by decide) (by decide) (by decide)

/-! ## Claim C5 -/

/-- The reading claim C5 states: the boundary is appended exactly when the
literal pattern ENDS in a lowercase letter. -/
def specPrefixEndsLower (p name : String) : Bool :=
  p.data.isPrefixOf name.data &&
    (match p.data.getLast? with
     | some c =>
       if isLowerAZ c then
         match name.data.drop p.data.length with
         | [] => true
         | c2 :: _ => isUpperAZ c2 || c2 = '_'
       else true
     | none => true)

/-- The amended reading: the boundary is appended exactly when the literal
pattern CONTAINS a lowercase letter. -/
def specPrefixContainsLower (p name : String) : Bool :=
  p.data.isPrefixOf name.data &&
    (if ruleContainsLower p then
       match name.data.drop p.data.length with
       | [] => true
       | c2 :: _ => isUpperAZ c2 || c2 = '_'
     else true)

/-- Claim C5, counterexample: for the pattern aB (which contains but does not
end in a lowercase letter) and the name aBc, the claim as stated predicts a
match (prefix rule needing only a leading substring) and hence an implied
Boolean; the code appends the boundary, the rule does not match, and
guessTypeFromName yields none. -/
theorem c5_counterexample :
    checkMatch { leadPat := some "aB", type? := some "bool" } "aBc" = false ∧
    specPrefixEndsLower "aB" "aBc" = true ∧
    guessTypeFromName
      { rule_map := [{ leadPat := some "aB", type? := some "bool" }] }
      "aBc" = none := by decide

/-- Claim C5 (amended): a prefix rule matches exactly when the name starts
with the literal pattern, followed by end-of-string or an uppercase
letter/underscore whenever the pattern CONTAINS (not merely ends in) a
lowercase letter; the first matching rule's implied type wins, resolved
through the base type-name table (bool resolves to Boolean); and with no
matching rule, is/has-prefixed names yield Boolean, the names cb, callback,
done, next, fn yield Function, and every other name yields none. -/
theorem c5_amended :
    (∀ p name, checkMatch { leadPat := some p } name =
      specPrefixContainsLower p name) ∧
    (∀ name, guessTypeFromName { rule_map := [] } name =
      (if isHasFallback name then some "Boolean"
       else if name ∈ cbNames then some "Function"
       else none)) ∧
    (guessTypeFromName
      { rule_map := [{ leadPat := some "my", type? := some "bool" },
                     { leadPat := some "my", type? := some "function" }] }
      "myFoo" = some "Boolean") := by
  refine ⟨?_, ?_, by decide⟩
  · intro p name
    unfold checkMatch specPrefixContainsLower
    by_cases h : ruleContainsLower p = true
    · simp [h]
    · simp [h]
  · intro name
    rfl

/-! ## Return-type resolution (src/bespoke_docs.py lines 478-492 and 702-716) -/

/-- Does re.match("[A-Z]", name) succeed: first character is an ASCII
uppercase letter. -/
def upperStart (name : String) : Bool :=
  match name.data with
  | c :: _ => isUpperAZ c
  | [] => false

/-- Strip one optional leading dollar or underscore, the regex [$_]? . -/
def afterOptSigil (cs : List Char) : List Char :=
  match cs with
  | c :: t => if c = '$' || c = '_' then t else cs
  | [] => []

/-- The boundary group ($|[A-Z_]): end of name or uppercase/underscore. -/
def atBoundary : List Char → Bool
  | [] => true
  | c :: _ => isUpperAZ c || c = '_'

/-- re.match("[$_]?(?:set|add)($|[A-Z_])", name). -/
def setAddMatch (name : String) : Bool :=
  match afterOptSigil name.data with
  | 's' :: 'e' :: 't' :: rest => atBoundary rest
  | 'a' :: 'd' :: 'd' :: rest => atBoundary rest
  | _ => false

/-- re.match("[$_]?(?:is|has)($|[A-Z_])", name). -/
def isHasMatch (name : String) : Bool :=
  match afterOptSigil name.data with
  | 'i' :: 's' :: rest => atBoundary rest
  | 'h' :: 'a' :: 's' :: rest => atBoundary rest
  | _ => false

/-- The yield tag line the JavaScript getMatchingNotations override appends
for a generator-marked name: tag @yields when the configured return tag's
last character is s, else @yield, then the braced type tab-stop, then the
optional description tab-stop. -/
def yieldLineStr (ps : PluginSettings) : String :=
  let rt := (ps.return_tag.getD "_")
  let plural := if rt.data.getLast? = some 's' then "s" else ""
  "@yield" ++ plural ++ " \x7b$\x7b1:[type]\x7d\x7d" ++
    (if ps.return_description.getD true then " $\x7b1:[description]\x7d" else "")

/-- The yield line, raising IndexError when the configured return tag is the
empty string (the source indexes its last character). -/
def yieldTagLine (ps : PluginSettings) : Except PyErr String :=
  if (ps.return_tag.getD "_") = "" then .error .indexError
  else .ok (yieldLineStr ps)

/-- BespokeDocsJavascript.getMatchingNotations: the base match list, plus the
yield tag rule when the name is generator-marked. -/
def getMatchingRulesJS (ps : PluginSettings) (name : String) :
    Except PyErr (List NameRule) :=
  let out := getMatchingRules ps name
  if name.data.head? = some '*' then do
    let line ← yieldTagLine ps
    pure (out ++ [{ tags? := some [line] }])
  else pure out

/-- BespokeDocsParser.guessTypeFromName as dispatched on the JavaScript
dialect (self.getMatchingNotations resolves to the override). -/
def guessTypeFromNameJS (ps : PluginSettings) (name : String) :
    Except PyErr (Option String) := do
  let rules ← getMatchingRulesJS ps name
  pure (guessFromRules ps.override_js_var rules name)

/-- BespokeDocsParser.getFunctionReturnType: Python None (no return line)
is none; Python False (unknown type) is some none; a type is some (some t). -/
def getFunctionReturnTypeBase (ps : PluginSettings) (name : String)
    (_retval : Option String) : Except PyErr (Option (Option String)) :=
  if upperStart name then .ok none
  else if setAddMatch name then .ok none
  else if isHasMatch name then .ok (some (some "Boolean"))
  else do
    let g ← guessTypeFromNameJS ps name
    pure (some (match g with
      | some t => if t = "" then none else some t
      | none => none))

/-- BespokeDocsJavascript.getFunctionReturnType: a generator-marked name
suppresses the return line, otherwise defer to the base resolution. -/
def getFunctionReturnTypeJS (ps : PluginSettings) (name : String)
    (retval : Option String) : Except PyErr (Option (Option String)) :=
  if name.data.head? = some '*' then .ok none
  else getFunctionReturnTypeBase ps name retval

/-- A name matching the set/add pattern starts with one of the characters
dollar, underscore, s, a: it is neither capitalized nor generator-marked. -/
theorem setAddMatch_start (name : String) (h : setAddMatch name = true) :
    upperStart name = false ∧ name.data.head? ≠ some '*' := by
  cases hd : name.data with
  | nil => rw [setAddMatch, hd] at h; exact absurd h (by decide)
  | cons c t =>
    rw [setAddMatch, hd] at h
    simp only [afterOptSigil] at h
    by_cases hs : (c = '$' || c = '_') = true
    · have hc : c = '$' ∨ c = '_' := by simpa using hs
      rcases hc with hc | hc <;> subst hc <;>
        exact ⟨by simp only [upperStart, hd]; decide,
               by simp only [hd, List.head?]; decide⟩
    · rw [if_neg hs] at h
      have hc : c = 's' ∨ c = 'a' := by
        by_contra hcc
        push_neg at hcc
        obtain ⟨h1, h2⟩ := hcc
        split at h
        · rename_i heq
          injection heq with hh _
          exact h1 hh
        · rename_i heq
          injection heq with hh _
          exact h2 hh
        · exact absurd h (by decide)
      rcases hc with hc | hc <;> subst hc <;>
        exact ⟨by simp only [upperStart, hd]; decide,
               by simp only [hd, List.head?]; decide⟩

/-- A name matching the is/has pattern starts with one of dollar,
underscore, i, h: it is neither capitalized nor generator-marked. -/
theorem isHasMatch_start (name : String) (h : isHasMatch name = true) :
    upperStart name = false ∧ name.data.head? ≠ some '*' := by
  cases hd : name.data with
  | nil => rw [isHasMatch, hd] at h; exact absurd h (by decide)
  | cons c t =>
    rw [isHasMatch, hd] at h
    simp only [afterOptSigil] at h
    by_cases hs : (c = '$' || c = '_') = true
    · have hc : c = '$' ∨ c = '_' := by simpa using hs
      rcases hc with hc | hc <;> subst hc <;>
        exact ⟨by simp only [upperStart, hd]; decide,
               by simp only [hd, List.head?]; decide⟩
    · rw [if_neg hs] at h
      have hc : c = 'i' ∨ c = 'h' := by
        by_contra hcc
        push_neg at hcc
        obtain ⟨h1, h2⟩ := hcc
        split at h
        · rename_i heq
          injection heq with hh _
          exact h1 hh
        · rename_i heq
          injection heq with hh _
          exact h2 hh
        · exact absurd h (by decide)
      rcases hc with hc | hc <;> subst hc <;>
        exact ⟨by simp only [upperStart, hd]; decide,
               by simp only [hd, List.head?]; decide⟩

/-- An is/has-pattern name does not match the set/add pattern. -/
theorem isHasMatch_not_setAdd (name : String) (h : isHasMatch name = true) :
    setAddMatch name = false := by
  rw [isHasMatch] at h
  rw [setAddMatch]
  split at h
  · rename_i heq
    rw [heq]
    rfl
  · rename_i heq
    rw [heq]
    rfl
  · exact absurd h (by decide)

/-- Claim C7: in the return-type resolution, a capitalized name or a
set/add-pattern name suppresses the return line (resolution none); an
is/has-pattern name forces the Boolean return type; a generator-marked name
(leading star) suppresses the ordinary return line and instead appends a
yield tag line whose tag is @yields exactly when the configured return tag
ends in s and @yield otherwise; every other name resolves through
guessTypeFromName, with the unknown placeholder (Python False, here
some none) when that yields nothing. -/
theorem c7_returnType (ps : PluginSettings) (name : String)
    (rv : Option String) :
    (upperStart name = true → getFunctionReturnTypeJS ps name rv = .ok none) ∧
    (setAddMatch name = true → getFunctionReturnTypeJS ps name rv = .ok none) ∧
    (isHasMatch name = true →
      getFunctionReturnTypeJS ps name rv = .ok (some (some "Boolean"))) ∧
    (name.data.head? = some '*' →
      getFunctionReturnTypeJS ps name rv = .ok none) ∧
    (name.data.head? = some '*' → ps.return_tag ≠ some "" →
      getMatchingRulesJS ps name =
        .ok (getMatchingRules ps name ++ [{ tags? := some [yieldLineStr ps] }])) ∧
    ((yieldLineStr ps).data.take 7 = "@yields".data ↔
      (ps.return_tag.getD "_").data.getLast? = some 's') ∧
    (upperStart name = false → setAddMatch name = false →
      isHasMatch name = false → name.data.head? ≠ some '*' →
      getFunctionReturnTypeJS ps name rv =
        (guessTypeFromNameJS ps name).map (fun g =>
          some (match g with
            | some t => if t = "" then none else some t
            | none => none))) := by
  refine ⟨?_, ?_, ?_, ?_, ?_, ?_, ?_⟩
  · intro h
    have hstar : name.data.head? ≠ some '*' := by
      cases hd : name.data with
      | nil => simp
      | cons c t =>
        simp only [upperStart, hd] at h
        simp only [List.head?, ne_eq, Option.some.injEq]
        intro hc
        subst hc
        exact absurd h (by decide)
    simp [getFunctionReturnTypeJS, hstar, getFunctionReturnTypeBase, h]
  · intro h
    obtain ⟨hupper, hstar⟩ := setAddMatch_start name h
    simp [getFunctionReturnTypeJS, hstar, getFunctionReturnTypeBase, hupper, h]
  · intro h
    obtain ⟨hupper, hstar⟩ := isHasMatch_start name h
    have hset := isHasMatch_not_setAdd name h
    simp [getFunctionReturnTypeJS, hstar, getFunctionReturnTypeBase, hupper,
      hset, h]
  · intro h
    simp [getFunctionReturnTypeJS, h]
  · intro h h2
    have hne : (ps.return_tag.getD "_") ≠ "" := by
      cases hrt : ps.return_tag with
      | none => simp
      | some t =>
        simp only [Option.getD]
        intro heq
        exact h2 (by rw [hrt, heq])
    simp [getMatchingRulesJS, h, yieldTagLine, hne]
  · by_cases hlast : (ps.return_tag.getD "_").data.getLast? = some 's'
    · cases hrd : ps.return_description.getD true <;>
        simp [yieldLineStr, hlast, hrd]
    · cases hrd : ps.return_description.getD true <;>
        simp [yieldLineStr, hlast, hrd]
  · intro h1 h2 h3 h4
    simp only [getFunctionReturnTypeJS, if_neg h4, getFunctionReturnTypeBase,
      h1, h2, h3, Bool.false_eq_true, if_false]
    cases hg : guessTypeFromNameJS ps name with
    | ok g => simp [hg, Except.map]
    | error e => simp [hg, Except.map]

/-- Witness for c7_returnType: every hypothesis-guarded branch realized
concretely (capitalized, setter, adder, boolean-query, generator,
plain-fallback names; plural and singular return tags). -/
theorem c7_returnType_witness :
    (getFunctionReturnTypeJS {} "Ctor" none = .ok none) ∧
    (getFunctionReturnTypeJS {} "setFoo" none = .ok none) ∧
    (getFunctionReturnTypeJS {} "_addItem" none = .ok none) ∧
    (getFunctionReturnTypeJS {} "isFoo" none = .ok (some (some "Boolean"))) ∧
    (getFunctionReturnTypeJS {} "*gen" none = .ok none) ∧
    (getMatchingRulesJS { return_tag := some "@returns" } "*gen" =
      .ok [{ tags? := (some ["@yields \x7b$\x7b1:[type]\x7d\x7d $\x7b1:[description]\x7d"]) }]) ∧
    ((yieldLineStr { return_tag := some "@returns" }).data.take 7 =
      "@yields".data) ∧
    (¬ (yieldLineStr { return_tag := some "@return" }).data.take 7 =
      "@yields".data) ∧
    (getFunctionReturnTypeJS {} "foo" none = .ok (some none)) := by
  refine ⟨?_, ?_, ?_, ?_, ?_, ?_, ?_, ?_, ?_⟩
  · exact (c7_returnType {} "Ctor" none).1 (by decide)
  · exact (c7_returnType {} "setFoo" none).2.1 (by decide)
  · exact (c7_returnType {} "_addItem" none).2.1 (by decide)
  · exact (c7_returnType {} "isFoo" none).2.2.1 (by decide)
  · exact (c7_returnType {} "*gen" none).2.2.2.1 (by decide)
  · have h := (c7_returnType { return_tag := some "@returns" } "*gen"
      none).2.2.2.2.1 (by decide) (by intro hh; injection hh with hh; exact absurd hh (by decide))
    rw [h]
    rfl
  · exact ((c7_returnType { return_tag := some "@returns" } "x"
      none).2.2.2.2.2.1).2 (by decide)
  · intro hc
    have h := ((c7_returnType { return_tag := some "@return" } "x"
      none).2.2.2.2.2.1).1 hc
    exact absurd h (by decide)
  · have h := (c7_returnType {} "foo" none).2.2.2.2.2.2 (by decide) (by decide)
      (by decide) (by decide)
    rw [h]
    rfl

/-! ## getDefinition (src/bespoke_docs.py lines 549-589)

The buffer is modelled as the list of lines following the invocation point;
read_line past the end yields none.  Comment stripping per line applies
re.sub("//.*") first, then the greedy re.sub("/\\*.*\\*/") which removes
from the first open marker through the last close marker (a single
substitution, since nothing matchable remains after it). -/

/-- Drop everything from the first // to the end of the line. -/
def stripLineComments : List Char → List Char
  | [] => []
  | '/' :: '/' :: _ => []
  | c :: t => c :: stripLineComments t

/-- The suffix after the LAST occurrence of the close marker, if any. -/
def afterLastClose : List Char → Option (List Char)
  | '*' :: '/' :: t =>
    (match afterLastClose ('/' :: t) with
     | some r => some r
     | none => some t)
  | _ :: t => afterLastClose t
  | [] => none

/-- Greedy removal of one open-to-last-close block comment. -/
def stripBlockComments : List Char → List Char
  | [] => []
  | '/' :: '*' :: t =>
    (match afterLastClose t with
     | some r => r
     | none => '/' :: stripBlockComments ('*' :: t))
  | c :: t => c :: stripBlockComments t

/-- Per-line comment stripping of getDefinition: line comments first, then
the greedy block-comment removal. -/
def stripComments (cs : List Char) : List Char :=
  stripBlockComments (stripLineComments cs)

/-- The suffix after the FIRST occurrence of the close marker, if any. -/
def afterFirstClose : List Char → Option (List Char)
  | [] => none
  | [_] => none
  | c :: c2 :: t =>
    if c = '*' && c2 = '/' then some t
    else afterFirstClose (c2 :: t)

theorem afterFirstClose_length (cs : List Char) :
    ∀ r, afterFirstClose cs = some r → r.length < cs.length := by
  induction cs with
  | nil => intro r h; simp [afterFirstClose] at h
  | cons c t ih =>
    intro r h
    cases t with
    | nil => simp [afterFirstClose] at h
    | cons c2 t2 =>
      rw [afterFirstClose] at h
      split at h
      · injection h with h
        subst r
        simp
        omega
      · have := ih r h
        simp only [List.length_cons] at this ⊢
        omega

/-- Lazy removal of every minimal block comment, the re.sub with the
non-greedy pattern used on argument lists in formatFunction.  The fuel is a
bound on the characters still to scan (each step consumes at least one and
the scan stops on an empty list), so the definition is structural and the
kernel can evaluate it. -/
def removeInlineCommentsF : Nat → List Char → List Char
  | 0, _ => []
  | _ + 1, [] => []
  | fuel + 1, '/' :: '*' :: t =>
    (match afterFirstClose t with
     | some r => removeInlineCommentsF fuel r
     | none => '/' :: removeInlineCommentsF fuel ('*' :: t))
  | fuel + 1, c :: t => c :: removeInlineCommentsF fuel t

/-- Lazy block-comment removal at full fuel. -/
def removeInlineComments (cs : List Char) : List Char :=
  removeInlineCommentsF cs.length cs

/-- Drop a literal prefix, or fail. -/
def dropLit : List Char → List Char → Option (List Char)
  | cs, [] => some cs
  | c :: cs, p :: ps => if c = p then dropLit cs ps else none
  | [], _ :: _ => none

/-- The regex class [\s*] of the function-opener pattern. -/
def isWsStar (c : Char) : Bool := pyWs c || c = '*'

/-- Consume an optional maximal identifier. -/
def dropIdent : List Char → List Char
  | c :: cs => if isIdStart c then cs.dropWhile isIdChar else c :: cs
  | [] => []

/-- First fnOpener alternative at a position:
function keyword, whitespace/stars, optional identifier, whitespace, an
open parenthesis. -/
def alt1At (cs : List Char) : Bool :=
  match dropLit cs "function".data with
  | some r1 =>
    let r2 := r1.dropWhile isWsStar
    let r3 := dropIdent r2
    let r4 := r3.dropWhile pyWs
    r4.head? = some '('
  | none => false

/-- Second fnOpener alternative at a position: a bare identifier start. -/
def alt2At (cs : List Char) : Bool :=
  match cs with
  | c :: _ => isIdStart c
  | [] => false

/-- Is there a close parenthesis later, followed by whitespace and an
arrow? -/
def arrowTail : List Char → Bool
  | ')' :: t =>
    (match dropLit (t.dropWhile pyWs) "=>".data with
     | some _ => true
     | none => false) || arrowTail t
  | _ :: t => arrowTail t
  | [] => false

/-- Arrow fnOpener alternative at a position: parenthesized head of an
arrow function. -/
def arrowAt (cs : List Char) : Bool :=
  match cs with
  | '(' :: t => arrowTail t
  | _ => false

/-- Is there a close parenthesis later, followed by whitespace and an open
brace? -/
def braceTail : List Char → Bool
  | ')' :: t => ((t.dropWhile pyWs).head? = some lbrace) || braceTail t
  | _ :: t => braceTail t
  | [] => false

/-- Method-shorthand fnOpener alternative at a position: identifier,
whitespace, parenthesized list, whitespace, open brace. -/
def alt3At (cs : List Char) : Bool :=
  match cs with
  | c :: t =>
    if isIdStart c then
      match (t.dropWhile isIdChar).dropWhile pyWs with
      | '(' :: u => braceTail u
      | _ => false
    else false
  | [] => false

/-- Does any alternative of the JavaScript fnOpener pattern match at this
position?  (The bare-identifier alternative subsumes the keyword and
method-shorthand alternatives for search-start purposes, but all are kept.) -/
def fnOpenerAt (cs : List Char) : Bool :=
  alt1At cs || alt2At cs || arrowAt cs || alt3At cs

/-- re.search of the fnOpener pattern: index of the leftmost match. -/
def fnOpenerSearchAux : List Char → Nat → Option Nat
  | [], _ => none
  | c :: t, i => if fnOpenerAt (c :: t) then some i else fnOpenerSearchAux t (i + 1)

/-- Leftmost fnOpener match position in a line. -/
def fnOpenerSearch (cs : List Char) : Option Nat := fnOpenerSearchAux cs 0

/-- Count the parenthesis balance over the [()] occurrences of a string,
the reduce(countBrackets, findall) of the source. -/
def countBrackets (total : Int) (cs : List Char) : Int :=
  cs.foldl (fun t c => if c = '(' then t + 1 else if c = ')' then t - 1 else t)
    total

/-- The line-gathering loop of getDefinition, with the 25-line budget as
fuel.  On the first line only (while the accumulated definition is still
empty) bracket counting starts at the fnOpener match. -/
def getDefinitionAux : Nat → List String → Int → String → String
  | 0, _, _, defn => defn
  | _ + 1, [], _, defn => defn
  | fuel + 1, line :: rest, openB, defn =>
    let stripped := stripComments line.data
    let searchFor :=
      if defn = "" then
        match fnOpenerSearch stripped with
        | some i => stripped.drop i
        | none => stripped
      else stripped
    let openB2 := countBrackets openB searchFor
    let defn2 := defn ++ String.mk stripped
    if openB2 = 0 then defn2 else getDefinitionAux fuel rest openB2 defn2

/-- BespokeDocsParser.getDefinition over the lines following the invocation
point, for the JavaScript dialect. -/
def getDefinition (lines : List String) : String :=
  getDefinitionAux 25 lines 0 ""

/-! ## parseFunction / parseVar (src/bespoke_docs.py lines 615-670)

The three declaration regexes are translated alternative by alternative;
each re.search is the leftmost position at which the pattern matches.
Greedy .*-before-close-parenthesis subpatterns select the rightmost close
parenthesis whose continuation matches. -/

/-- Take a maximal identifier, or fail. -/
def takeIdent : List Char → Option (List Char × List Char)
  | c :: cs =>
    if isIdStart c then
      some (c :: cs.takeWhile isIdChar, cs.dropWhile isIdChar)
    else none
  | [] => none

/-- The prefix before the RIGHTMOST close parenthesis whose suffix satisfies
the continuation check. -/
def beforeLastParenWith (check : List Char → Bool) : List Char → Option (List Char)
  | [] => none
  | c :: t =>
    match beforeLastParenWith check t with
    | some p => some (c :: p)
    | none => if c = ')' && check t then some [] else none

/-- Continuation check for the arrow pattern: whitespace then the arrow. -/
def arrowAfter (t : List Char) : Bool :=
  (dropLit (t.dropWhile pyWs) "=>".data).isSome

/-- Continuation check for the method-shorthand pattern: whitespace then an
open brace. -/
def braceAfter (t : List Char) : Bool :=
  (t.dropWhile pyWs).head? = some lbrace

/-- The function-keyword part of the first declaration regex, starting at
the function keyword: whitespace/stars (the generator marker), an optional
name, and the parenthesized argument text up to the last close parenthesis.
name1 is the assignment-target name captured before the keyword. -/
def fnCoreAt (r : List Char) (name1 : Option (List Char)) :
    Option (String × String) :=
  match dropLit r "function".data with
  | some r1 =>
    let gen := r1.takeWhile isWsStar
    let r2 := r1.dropWhile isWsStar
    let (name2, r3) :=
      match takeIdent r2 with
      | some (id2, rr) => (some id2, rr)
      | none => (none, r2)
    match r3.dropWhile pyWs with
    | '(' :: r5 =>
      let r6 := r5.dropWhile pyWs
      match beforeLastParenWith (fun _ => true) r6 with
      | some args =>
        let genSym := if gen.contains '*' then "*" else ""
        let nm :=
          match name1 with
          | some n1 => String.mk n1
          | none =>
            match name2 with
            | some n2 => String.mk n2
            | none => ""
        some (genSym ++ nm, String.mk args)
      | none => none
    | _ => none
  | none => none

/-- The first declaration regex at one position: an optional
assignment-target name and colon/equals, then the function-keyword core. -/
def fnMatchAt (cs : List Char) : Option (String × String) :=
  match takeIdent cs with
  | some (id1, r1) =>
    (match r1.dropWhile pyWs with
     | c :: r3 =>
       if c = ':' || c = '=' then
         match fnCoreAt (r3.dropWhile pyWs) (some id1) with
         | some res => some res
         | none => fnCoreAt cs none
       else fnCoreAt cs none
     | [] => fnCoreAt cs none)
  | none => fnCoreAt cs none

/-- Leftmost match of the first declaration regex. -/
def searchFnKeyword : List Char → Option (String × String)
  | [] => none
  | c :: t =>
    match fnMatchAt (c :: t) with
    | some r => some r
    | none => searchFnKeyword t

/-- The arrow-function regex at one position: a bare identifier or a
parenthesized list, then whitespace and the arrow; yields the argument
text. -/
def arrowMatchAt (cs : List Char) : Option String :=
  match cs with
  | c :: _ =>
    if isIdStart c then
      match takeIdent cs with
      | some (id1, r1) =>
        if (dropLit (r1.dropWhile pyWs) "=>".data).isSome then
          some (String.mk id1)
        else none
      | none => none
    else if c = '(' then
      match beforeLastParenWith arrowAfter (cs.tail.dropWhile pyWs) with
      | some args => some (String.mk args)
      | none => none
    else none
  | [] => none

/-- Leftmost match of the arrow-function regex. -/
def searchArrow : List Char → Option String
  | [] => none
  | c :: t =>
    match arrowMatchAt (c :: t) with
    | some r => some r
    | none => searchArrow t

/-- The method-shorthand regex at one position: a name, whitespace, the
parenthesized argument text, whitespace, an open brace. -/
def methodMatchAt (cs : List Char) : Option (String × String) :=
  match takeIdent cs with
  | some (id1, r1) =>
    (match r1.dropWhile pyWs with
     | '(' :: r2 =>
       match beforeLastParenWith braceAfter r2 with
       | some args => some (String.mk id1, String.mk args)
       | none => none
     | _ => none)
  | none => none

/-- Leftmost match of the method-shorthand regex. -/
def searchMethod : List Char → Option (String × String)
  | [] => none
  | c :: t =>
    match methodMatchAt (c :: t) with
    | some r => some r
    | none => searchMethod t

/-- BespokeDocsJavascript.parseFunction: the three regexes in priority
order; the result is (name, raw argument text, retval hint none). -/
def parseFunctionJS (line : String) : Option (String × String × Option String) :=
  match searchFnKeyword line.data with
  | some (name, args) => some (name, args, none)
  | none =>
    match searchArrow line.data with
    | some args => some ("", args, none)
    | none =>
      match searchMethod line.data with
      | some (name, args) => some (name, args, none)
      | none => none

/-- The variable regex at one position: a name, colon/equals, and the value
lazily up to the first semicolon or comma or end of line. -/
def varMatchAt (cs : List Char) : Option (String × String) :=
  match takeIdent cs with
  | some (id1, r1) =>
    (match r1.dropWhile pyWs with
     | c :: r2 =>
       if c = '=' || c = ':' then
         let v := (r2.dropWhile pyWs).takeWhile (fun d => d ≠ ';' && d ≠ ',')
         some (String.mk id1, String.mk v)
       else none
     | [] => none)
  | none => none

/-- Leftmost match of the variable regex. -/
def searchVar : List Char → Option (String × String)
  | [] => none
  | c :: t =>
    match varMatchAt (c :: t) with
    | some r => some r
    | none => searchVar t

/-- BespokeDocsParser.parseVar (identical for both dialects): the stripped
value with its captured name. -/
def parseVar (line : String) : Option (String × String) :=
  match searchVar line.data with
  | some (name, v) => some (name, pyStrip v)
  | none => none

/-! ## Argument analysis (src/bespoke_docs.py lines 672-700) -/

/-- One application of re.split("\\s*=\\s*", arg, 1): the text before the
first equals sign (with the adjacent whitespace absorbed into the
separator) and, when an equals sign occurs, the text after it. -/
def wsThenEq : List Char → Option (List Char)
  | c :: t => if c = '=' then some t else if pyWs c then wsThenEq t else none
  | [] => none

/-- Split on the first equals sign with surrounding whitespace. -/
def splitEqOnce : List Char → (List Char × Option (List Char))
  | [] => ([], none)
  | c :: t =>
    if c = '=' then ([], some (t.dropWhile pyWs))
    else if pyWs c then
      match wsThenEq (c :: t) with
      | some r2 => ([], some (r2.dropWhile pyWs))
      | none =>
        let (l, r) := splitEqOnce t
        (c :: l, r)
    else
      let (l, r) := splitEqOnce t
      (c :: l, r)

/-- BespokeDocsJavascript.getArgType: rest parameters give the rest-typed
placeholder; a default value is type-guessed (raising on an empty value);
otherwise no type. -/
def getArgTypeJS (ps : PluginSettings) (arg : String) :
    Except PyErr (Option String) :=
  let (p0, p1) := splitEqOnce arg.data
  if p0.take 3 = "...".data then .ok (some "...[type]")
  else
    match p1 with
    | some v => guessTypeFromValueJS ps (String.mk v)
    | none => .ok none

/-- BespokeDocsJavascript.getArgName: the text before a default value, with
a rest-parameter marker stripped. -/
def getArgNameJS (arg : String) : String :=
  let (p0, _) := splitEqOnce arg.data
  if p0.take 3 = "...".data then String.mk (p0.drop 3) else String.mk p0

/-- BespokeDocsJavascript.getArgInfo: a braced token is expanded into its
members, each name prefixed options-dot; every member yields a
(type-guess, name) pair. -/
def getArgInfoJS (ps : PluginSettings) (arg : String) :
    Except PyErr (List (Option String × String)) := do
  let braced := arg.data.head? = some lbrace && arg.data.getLast? = some rbrace
    && decide (2 ≤ arg.data.length)
  let (subItems, pre) :=
    if braced then
      (splitByCommas (String.mk (arg.data.drop 1).dropLast), "options.")
    else ([arg], "")
  subItems.mapM (fun s => do
    let t ← getArgTypeJS ps s
    pure (t, pre ++ getArgNameJS s))

/-- BespokeDocsParser.parseArgs with the JavaScript per-token analysis. -/
def parseArgsJS (ps : PluginSettings) (args : String) :
    Except PyErr (List (Option String × String)) := do
  let infos ← (splitByCommas args).mapM (getArgInfoJS ps)
  pure infos.join

/-! ## Formatting (src/bespoke_docs.py lines 363-476)

The inheritance of BespokeDocsParser and BespokeDocsJavascript is flattened:
dialect-dispatched calls resolve to the JavaScript overrides, and the
JavaScript settings constants curlyTypes and typeInfo, both True, are
inlined. -/

/-- escape: backslash-protect the snippet metacharacters dollar and the two
braces. -/
def escapeL : List Char → List Char
  | [] => []
  | c :: t =>
    (if c = '$' || c = lbrace || c = rbrace then [bslash, c] else [c]) ++ escapeL t

/-- escape on strings. -/
def escape (s : String) : String := String.mk (escapeL s.data)

/-- The typeTag dialect setting: the override_js_var setting or type. -/
def typeTag (ps : PluginSettings) : String :=
  match ps.override_js_var with
  | some t => if t = "" then "type" else t
  | none => "type"

/-- BespokeDocsParser.getTypeInfo with the JavaScript dialect's curly braces:
the braced, escaped type tab-stop for one argument. -/
def getTypeInfoJS (ps : PluginSettings) (argType : Option String)
    (argName : String) : Except PyErr String := do
  let fallback : Except PyErr String := do
    let g ← guessTypeFromNameJS ps argName
    pure (match g with
      | some s => if s = "" then "[type]" else s
      | none => "[type]")
  let t ←
    match argType with
    | some a => if a = "" then fallback else pure a
    | none => fallback
  pure ("\x7b$\x7b1:" ++ escape t ++ "\x7d\x7d ")

/-- BespokeDocsParser.formatFunction with the JavaScript overrides for
argument analysis, return-type resolution and notation matching. -/
def formatFunctionJS (ps : PluginSettings) (nameOverride : Option String)
    (name args : String) (retval : Option String) (asSetter : Bool := false) :
    Except PyErr (List String) := do
  if asSetter then
    return ["@private"]
  let extraTagAfter := ps.extra_tags_go_after
  let defaultDesc :=
    "[" ++ escape name ++ (if name = "" then "" else " ") ++ "description]"
  let description :=
    match nameOverride with
    | some s => if s = "" then defaultDesc else s
    | none => defaultDesc
  let out1 : List String :=
    if ps.function_description.getD false then
      ["$\x7b1:" ++ description ++ "\x7d"]
    else []
  let out2 :=
    if ps.autoadd_method_tag then out1 ++ ["@method " ++ escape name] else out1
  let out3 := if !extraTagAfter then out2 ++ ps.extra_tags else out2
  let argsStripped :=
    if args ≠ "" then String.mk (removeInlineComments args.data) else args
  let argLines ←
    if args ≠ "" then do
      let parsed ← parseArgsJS ps argsStripped
      parsed.mapM (fun info => do
        let typeInfo ← getTypeInfoJS ps info.1 info.2
        let fmt := if ps.prefer_param then "@param " else "@arg "
        let base := fmt ++ typeInfo ++ (if ps.param_name then escape info.2 else "")
        pure (base ++ (if ps.param_description then " $\x7b1:[description]\x7d" else "")))
    else pure []
  let out4 := out3 ++ argLines
  let retType ← getFunctionReturnTypeJS ps name retval
  let out5 ←
    match retType with
    | none => pure out4
    | some rt => do
      let typeInfo := " \x7b$\x7b1:" ++
        (match rt with
         | some t => if t = "" then "[type]" else t
         | none => "[type]") ++ "\x7d\x7d"
      let tag :=
        match ps.return_tag with
        | some t => if t = "" then "@return" else t
        | none => "@return"
      if ps.return_description.getD false then
        let third :=
          if argsStripped ≠ "" && ps.align_tags = some .deep &&
              !ps.per_section_indent then " " else ""
        pure (out4 ++ [tag ++ typeInfo ++ " " ++ third ++ "$\x7b1:[description]\x7d"])
      else
        pure (out4 ++ [tag ++ typeInfo])
  let rules ← getMatchingRulesJS ps name
  let out6 := out5 ++ (rules.map (fun r => r.tags?.getD [])).join
  pure (if extraTagAfter then out6 ++ ps.extra_tags else out6)

/-- BespokeDocsParser.formatVar with the JavaScript type guessers (no caller
ever passes an explicit valType). -/
def formatVar (ps : PluginSettings) (nameOverride : Option String)
    (inline : Bool) (name val : String) : Except PyErr (List String) := do
  let nameGuess : Except PyErr String := do
    let g ← guessTypeFromNameJS ps name
    pure (match g with
      | some t => if t = "" then "[type]" else t
      | none => "[type]")
  let valType ←
    if val = "" then pure "[type]"
    else do
      let g ← guessTypeFromValueJS ps val
      match g with
      | some t => if t = "" then nameGuess else pure t
      | none => nameGuess
  if inline then
    pure ["@" ++ typeTag ps ++ " \x7b$\x7b1:" ++ valType ++
      "\x7d\x7d $\x7b1:[description]\x7d"]
  else
    pure ["$\x7b1:[" ++ escape name ++ " description]\x7d",
      "@" ++ typeTag ps ++ " \x7b$\x7b1:" ++ valType ++ "\x7d\x7d"]

/-- The try-block body of BespokeDocsParser.parse: match a function
declaration, then a variable declaration, formatting whichever matched. -/
def parseDeclTry (ps : PluginSettings) (nameOverride : Option String)
    (inline : Bool) (line : String) : Except PyErr (Option (List String)) :=
  match parseFunctionJS line with
  | some (name, args, retval) => do
    let f ← formatFunctionJS ps nameOverride name args retval
    pure (some f)
  | none =>
    match parseVar line with
    | some (name, v) => do
      let f ← formatVar ps nameOverride inline name v
      pure (some f)
    | none => pure none

/-- BespokeDocsParser.parse: simple mode skips parsing; the bare except
turns any exception into the no-declaration result none. -/
def parse (ps : PluginSettings) (nameOverride : Option String) (inline : Bool)
    (line : String) : Option (List String) :=
  if ps.simple_mode then none
  else
    match parseDeclTry ps nameOverride inline line with
    | .ok r => r
    | .error _ => none

/-! ## Snippet assembly (src/bespoke_docs.py lines 186-325)

substituteVariables, alignTags, fixTabStops and createSnippet, with the
current date and datetime strings passed in as parameters. -/

theorem dropWhile_length_le {α : Type} (p : α → Bool) (l : List α) :
    (l.dropWhile p).length ≤ l.length := by
  induction l with
  | nil => simp
  | cons c t ih =>
    rw [List.dropWhile]
    split
    · exact Nat.le_succ_of_le ih
    · simp

/-- Parse the interior of a variable placeholder after its two open braces:
nonempty brace-free content followed by two close braces; yields the content
and the rest. -/
def braceContent : List Char → Option (List Char × List Char)
  | [] => none
  | c :: t =>
    if c = rbrace then none
    else
      match braceContent t with
      | some (cont, rest) => some (c :: cont, rest)
      | none =>
        match t with
        | [] => none
        | [_] => none
        | r1 :: r2 :: v =>
          if r1 = rbrace && r2 = rbrace then some ([c], v) else none

theorem braceContent_length (cs : List Char) :
    ∀ cont rest, braceContent cs = some (cont, rest) →
      rest.length < cs.length := by
  induction cs with
  | nil => intro cont rest h; simp [braceContent] at h
  | cons c t ih =>
    intro cont rest h
    by_cases hc : c = rbrace
    · simp only [braceContent] at h
      rw [if_pos hc] at h
      exact absurd h (by simp)
    · simp only [braceContent] at h
      rw [if_neg hc] at h
      cases hb : braceContent t with
      | some pr =>
        obtain ⟨cont2, rest2⟩ := pr
        rw [hb] at h
        simp only at h
        injection h with h
        injection h with h1 h2
        subst h2
        have := ih cont2 rest2 hb
        simp only [List.length_cons]
        omega
      | none =>
        rw [hb] at h
        simp only at h
        split at h
        · exact absurd h (by simp)
        · exact absurd h (by simp)
        · split at h
          · injection h with h
            injection h with h1 h2
            subst h2
            simp only [List.length_cons]
            omega
          · exact absurd h (by simp)

/-- substituteVariables on one line: each doubly-braced placeholder named
date or datetime is replaced with the corresponding current-time string,
any other placeholder is left as matched. -/
def subVarsF (d dt : String) : Nat → List Char → List Char
  | 0, _ => []
  | _ + 1, [] => []
  | fuel + 1, c :: t =>
    if c = lbrace then
      match t with
      | c2 :: u =>
        if c2 = lbrace then
          match braceContent u with
          | some (content, rest) =>
            (if content = "datetime".data then dt.data
             else if content = "date".data then d.data
             else lbrace :: lbrace :: (content ++ [rbrace, rbrace])) ++
              subVarsF d dt fuel rest
          | none => c :: subVarsF d dt fuel (c2 :: u)
        else c :: subVarsF d dt fuel (c2 :: u)
      | [] => [c]
    else c :: subVarsF d dt fuel t

/-- substituteVariables on one line, at full fuel. -/
def subVarsL (d dt : String) (cs : List Char) : List Char :=
  subVarsF d dt cs.length cs

/-- BespokeDocsCommand.substituteVariables over the line list. -/
def substituteVariables (d dt : String) (out : List String) : List String :=
  out.map (fun l => String.mk (subVarsL d dt l.data))

/-! ### The tab-stop pattern

The renumbering pattern of fixTabStops (and the width pattern of alignTags)
is: dollar, open brace, digits, colon, nonempty brace-free content, close
brace.  tryStop recognizes one occurrence at the head of a character list. -/

/-- Numeric value of a digit run. -/
def digitsVal (ds : List Char) : Nat :=
  ds.foldl (fun a c => 10 * a + (c.toNat - 48)) 0

/-- Decimal digits of a number, most significant first, with enough fuel to
exhaust the decimal length. -/
def natToCharsF : Nat → Nat → List Char
  | 0, _ => []
  | fuel + 1, n =>
    if n < 10 then [Char.ofNat (48 + n)]
    else natToCharsF fuel (n / 10) ++ [Char.ofNat (48 + n % 10)]

/-- Decimal digits of a number, most significant first. -/
def natToChars (n : Nat) : List Char := natToCharsF (n + 1) n

/-- First stage of the tab-stop pattern: the dollar and open brace. -/
def stopHead : List Char → Option (List Char)
  | a :: b :: r0 => if a = '$' && b = lbrace then some r0 else none
  | _ => none

/-- Second stage: a nonempty digit run and the colon. -/
def stopDigits (r0 : List Char) : Option (Nat × List Char) :=
  let ds := r0.takeWhile isDigit09
  if ds = [] then none
  else
    match r0.dropWhile isDigit09 with
    | ':' :: r2 => some (digitsVal ds, r2)
    | _ => none

/-- Third stage: nonempty brace-free content and the close brace. -/
def stopContent (r2 : List Char) : Option (List Char × List Char) :=
  let content := r2.takeWhile (· ≠ rbrace)
  if content = [] then none
  else
    match r2.dropWhile (· ≠ rbrace) with
    | c :: r4 => if c = rbrace then some (content, r4) else none
    | [] => none

/-- Match one tab-stop placeholder at the head of the input: its index, its
content and the rest. -/
def tryStop (cs : List Char) : Option (Nat × List Char × List Char) :=
  (stopHead cs).bind fun r0 =>
    (stopDigits r0).bind fun nr =>
      (stopContent nr.2).map fun cr => (nr.1, cr.1, cr.2)

theorem stopHead_length (cs r0 : List Char) (h : stopHead cs = some r0) :
    r0.length + 2 = cs.length := by
  cases cs with
  | nil => simp [stopHead] at h
  | cons a t0 =>
    cases t0 with
    | nil => simp [stopHead] at h
    | cons b r1 =>
      rw [stopHead] at h
      split at h
      · injection h with h
        subst h
        simp
      · exact absurd h (by simp)

theorem stopDigits_length (r0 : List Char) (n : Nat) (r2 : List Char)
    (h : stopDigits r0 = some (n, r2)) : r2.length < r0.length := by
  rw [stopDigits] at h
  split at h
  · exact absurd h (by simp)
  · split at h
    · rename_i r2x heq
      injection h with h
      injection h with h1 h2
      subst h2
      have e1 : (r0.dropWhile isDigit09).length ≤ r0.length :=
        dropWhile_length_le _ r0
      have e2 := congrArg List.length heq
      simp only [List.length_cons] at e2
      rename_i hds _
      have e3 : (r0.takeWhile isDigit09).length ≠ 0 := by
        intro hz
        exact hds (List.eq_nil_of_length_eq_zero hz)
      have e4 := congrArg List.length (List.takeWhile_append_dropWhile
        (p := isDigit09) (l := r0))
      simp only [List.length_append] at e4
      omega
    · exact absurd h (by simp)

theorem stopContent_length (r2 : List Char) (content r4 : List Char)
    (h : stopContent r2 = some (content, r4)) : r4.length < r2.length := by
  rw [stopContent] at h
  split at h
  · exact absurd h (by simp)
  · split at h
    · rename_i c r4x heq
      split at h
      · injection h with h
        injection h with h1 h2
        subst h2
        have e2 := congrArg List.length heq
        simp only [List.length_cons] at e2
        have e3 : (r2.dropWhile (fun x => decide (x ≠ rbrace))).length ≤ r2.length :=
          dropWhile_length_le _ r2
        omega
      · exact absurd h (by simp)
    · exact absurd h (by simp)

theorem tryStop_length (cs : List Char) (n : Nat) (content rest : List Char)
    (h : tryStop cs = some (n, content, rest)) : rest.length < cs.length := by
  rw [tryStop] at h
  simp only [Option.bind_eq_some, Option.map_eq_some'] at h
  obtain ⟨r0, h0, nr, h1, cr, h2, h3⟩ := h
  have e0 := stopHead_length cs r0 h0
  obtain ⟨n1, r2⟩ := nr
  have e1 := stopDigits_length r0 n1 r2 h1
  obtain ⟨c1, r4⟩ := cr
  have e2 := stopContent_length r2 c1 r4 h2
  have : rest = r4 := by
    have := congrArg (fun p => p.2.2) h3
    simpa using this.symm
  subst this
  omega

/-- The re.sub of fixTabStops on one line: each matched placeholder's index
is replaced with the running counter value; yields the rewritten line and
the next counter value. -/
def subStopsF : Nat → Nat → List Char → List Char × Nat
  | 0, c, _ => ([], c)
  | _ + 1, c, [] => ([], c)
  | fuel + 1, c, x :: xs =>
    match tryStop (x :: xs) with
    | some (_, content, rest) =>
      let (out, c2) := subStopsF fuel (c + 1) rest
      ('$' :: lbrace :: (natToChars c ++ ':' :: (content ++ rbrace :: out)), c2)
    | none =>
      let (out, c2) := subStopsF fuel c xs
      (x :: out, c2)

/-- The per-line renumbering substitution at full fuel. -/
def subStops (c : Nat) (cs : List Char) : List Char × Nat :=
  subStopsF cs.length c cs

/-- BespokeDocsCommand.fixTabStops threaded over the line list with the
counter starting at 1. -/
def fixLines (c : Nat) : List String → (List String × Nat)
  | [] => ([], c)
  | l :: ls =>
    let (l2, c2) := subStops c l.data
    let (ls2, c3) := fixLines c2 ls
    (String.mk l2 :: ls2, c3)

/-- BespokeDocsCommand.fixTabStops. -/
def fixTabStops (out : List String) : List String := (fixLines 1 out).1

/-- Replace each matched placeholder with its content, the re.sub of
alignTags.outputWidth. -/
def replaceStopsContentF : Nat → List Char → List Char
  | 0, _ => []
  | _ + 1, [] => []
  | fuel + 1, x :: xs =>
    match tryStop (x :: xs) with
    | some (_, content, rest) => content ++ replaceStopsContentF fuel rest
    | none => x :: replaceStopsContentF fuel xs

/-- The width substitution at full fuel. -/
def replaceStopsContent (cs : List Char) : List Char :=
  replaceStopsContentF cs.length cs

/-- The replace of the escaped dollar with a bare dollar. -/
def unescDollar : List Char → List Char
  | [] => []
  | c :: t =>
    if c = bslash then
      match t with
      | '$' :: u => '$' :: unescDollar u
      | [] => [c]
      | d :: u => c :: unescDollar (d :: u)
    else c :: unescDollar t

/-- alignTags.outputWidth: the rendered length of a snippet fragment. -/
def outputWidthL (cs : List Char) : Nat :=
  (unescDollar (replaceStopsContent cs)).length

/-- Python str.split on a single space: empty fragments are kept. -/
def splitOnSpaceL : List Char → List (List Char)
  | [] => [[]]
  | c :: t =>
    if c = ' ' then [] :: splitOnSpaceL t
    else
      match splitOnSpaceL t with
      | h :: r => (c :: h) :: r
      | [] => [[c]]

/-- startswith on strings. -/
def startsWithStr (p s : String) : Bool := p.data.isPrefixOf s.data

/-- BespokeDocsCommand.alignTags: pad the columns of the tag lines to the
per-column (or, shallowly, first-column) maxima. -/
def alignTags (ps : PluginSettings) (out : List String) : List String :=
  let shallow := (ps.align_tags.getD .deep) = .shallow ||
    (ps.align_tags.getD .deep) = .boolTrue
  let returnTag : Option String :=
    if ps.per_section_indent then
      some (match ps.return_tag with
        | some t => if t = "" then "@return" else t
        | none => "@return")
    else none
  let widths := out.filterMap (fun line =>
    if startsWithStr "@" line then
      if (match returnTag with
          | some rt => startsWithStr rt line
          | none => false) then none
      else
        some ((if startsWithStr "@author" line then ["@author".data]
          else splitOnSpaceL line.data).map outputWidthL)
    else none)
  let maxCols := widths.foldl (fun m w => max m w.length) 0
  let colsToFill := if shallow then 1 else maxCols
  let maxW : Nat → Nat := fun i =>
    if i < colsToFill then widths.foldl (fun m w => max m (w.getD i 0)) 0
    else 0
  let minCol := ps.min_spaces_between_columns
  out.map (fun line =>
    if startsWithStr "@" line && !startsWithStr "@author" line then
      let parts := splitOnSpaceL line.data
      pyStrip (String.mk ((parts.enum.map (fun p =>
        p.2 ++ List.replicate minCol ' ' ++
          List.replicate (maxW p.1 - outputWidthL p.2) ' ')).join))
    else line)

/-- re.match of the leading-tag pattern in createSnippet: optional
whitespace, the at sign, a nonempty letter run (the captured tag name). -/
def tagOf (line : String) : Option String :=
  match line.data.dropWhile pyWs with
  | '@' :: t =>
    let letters := t.takeWhile (fun c => isLowerAZ c || isUpperAZ c)
    if letters = [] then none else some (String.mk letters)
  | _ => none

/-- The spacer_between_sections=True insertion loop of createSnippet: a
blank line before each new distinct leading tag group (skipping the very
first group when function_description is exactly False).  The source's
in-place insertion revisits the just-shifted line, which then equals the
updated last tag, so the loop is equivalent to this single pass. -/
def spacerAllAux (fdIsFalse : Bool) : Option String → List String → List String
  | _, [] => []
  | lastTag, l :: ls =>
    match tagOf l with
    | some t =>
      if lastTag ≠ some t then
        (if fdIsFalse && lastTag = none then [l] else ["", l]) ++
          spacerAllAux fdIsFalse (some t) ls
      else l :: spacerAllAux fdIsFalse lastTag ls
    | none => l :: spacerAllAux fdIsFalse lastTag ls

/-- The after_description variant: one blank line before the first tag line
(the source's lastLineIsTag flag never resets, so at most one insertion). -/
def spacerAfterDescAux : List String → List String
  | [] => []
  | l :: ls =>
    match tagOf l with
    | some _ => "" :: l :: ls
    | none => l :: spacerAfterDescAux ls

/-- The configured indentation inside the comment body. -/
def indentSpaces (ps : PluginSettings) : String :=
  String.mk (List.replicate (max 0 ps.indentation_spaces).toNat ' ')

/-- BespokeDocsCommand.createSnippet: section spacing, then each line behind
the comment-continuation marker, or the single index-0 placeholder holding
the trailing text when nothing was produced; the dialect closer ends the
block. -/
def createSnippet (ps : PluginSettings) (out : List String) (trailing : String) :
    String :=
  let closer := " */"
  if out ≠ [] then
    let out2 :=
      match ps.spacer_between_sections with
      | .sTrue => spacerAllAux (ps.function_description = some false) none out
      | .afterDescription =>
        if ps.function_description.getD false then spacerAfterDescAux out else out
      | .off => out
    String.join (out2.map (fun line =>
      "\n *" ++ (if line = "" then "" else indentSpaces ps ++ line))) ++
      "\n" ++ closer
  else
    "\n *" ++ indentSpaces ps ++ "$\x7b0:" ++ trailing ++ "\x7d" ++ "\n" ++ closer

/-- The line list entering tab-stop renumbering: variable substitution, then
alignment when enabled and not inline. -/
def genMid (ps : PluginSettings) (d dt : String) (out : List String)
    (inline : Bool) : List String :=
  let out1 := if out.isEmpty then out else substituteVariables d dt out
  let alignEnabled := (ps.align_tags.getD .deep) = .deep ||
    (ps.align_tags.getD .deep) = .shallow || (ps.align_tags.getD .deep) = .boolTrue
  if !out1.isEmpty && alignEnabled && !inline then alignTags ps out1 else out1

/-- BespokeDocsCommand.generateSnippet with the current date and datetime
strings passed in. -/
def generateSnippet (ps : PluginSettings) (d dt : String) (out : List String)
    (inline : Bool) (trailing : String) : String :=
  let out2 := genMid ps d dt out inline
  let out3 := if out2.isEmpty then out2 else fixTabStops out2
  if inline then
    match out3 with
    | l :: _ => " " ++ l ++ " */"
    | [] => " $0 */"
  else
    createSnippet ps out3 trailing ++
      (if ps.newline_after_block then "\n" else "")

/-! ## Claims C6, C10, C3, C9 -/

theorem getDefinitionAux_take (fuel : Nat) :
    ∀ (lines : List String) (openB : Int) (defn : String),
      getDefinitionAux fuel lines openB defn =
        getDefinitionAux fuel (lines.take fuel) openB defn := by
  induction fuel with
  | zero => intro lines openB defn; rfl
  | succ n ih =>
    intro lines openB defn
    cases lines with
    | nil => rfl
    | cons l ls =>
      simp only [List.take_succ_cons, getDefinitionAux]
      split
      all_goals split
      all_goals first
        | rfl
        | exact ih ls _ _

/-- Claim C6: getDefinition reads at most 25 successive lines, strips line
comments and inline block comments from each line, seeds the parenthesis
balance on the first line from the function-opener match (ignoring wrapping
parentheses before the declaration), concatenates the stripped lines, and
stops as soon as the balance returns to zero; in particular the four-line
example gathers into one logical declaration whose argument list parses to
bar, baz, quux in order. -/
theorem c6_getDefinition (lines : List String) :
    (getDefinition ["function foo(bar,", "             baz,",
        "             quux", "             ) \x7b"] =
      "function foo(bar,             baz,             quux             ) \x7b") ∧
    (parseFunctionJS
        "function foo(bar,             baz,             quux             ) \x7b" =
      some ("foo", "bar,             baz,             quux             ", none)) ∧
    (parseArgsJS {} "bar,             baz,             quux             " =
      .ok [(none, "bar"), (none, "baz"), (none, "quux")]) ∧
    (getDefinition lines = getDefinition (lines.take 25)) ∧
    (String.mk (stripComments "f(a /* note */, b) \x7b // trailing".data) =
      "f(a , b) \x7b ") ∧
    (getDefinition ["f(a) \x7b", "more("] = "f(a) \x7b") ∧
    (getDefinition ["(function (foo, bar) \x7b", "\x7d)(baz)"] =
      "(function (foo, bar) \x7b") := by
  refine ⟨by decide, by decide, by decide, ?_, by decide, by decide, by decide⟩
  exact getDefinitionAux_take 25 lines 0 ""

/-- Claim C10: a parameter with an empty default value after the equals sign
makes the JavaScript default-value type inference index the first character
of the empty value string; the IndexError propagates through formatting to
parse's catch-all handler and the whole declaration degrades to none (the
unstructured placeholder), although the line matches the function grammar
and the other parameters were parseable. -/
theorem c10_emptyDefault (ps : PluginSettings) :
    (guessTypeFromValueJS ps "" = .error .indexError) ∧
    (getArgTypeJS ps "a=" = .error .indexError) ∧
    (parseFunctionJS "function f(a=) \x7b" = some ("f", "a=", none)) ∧
    (parseFunctionJS "function f(b, a=) \x7b" = some ("f", "b, a=", none)) ∧
    (getArgInfoJS {} "b" = .ok [(none, "b")]) ∧
    (parse {} none false "function f(a=) \x7b" = none) ∧
    (parse {} none false "function f(b, a=) \x7b" = none) := by
  have h1 : guessTypeFromValueJS ps "" = .error .indexError := by
    have hn : isNumeric "" = false := by decide
    simp [guessTypeFromValueJS, hn]
  refine ⟨h1, ?_, by decide, by decide, by decide, by decide, by decide⟩
  show guessTypeFromValueJS ps "" = .error .indexError
  exact h1

/-- Claim C3: the top-level parse never raises — any exception during
declaration matching or formatting is caught and treated as no structured
declaration (parse yields none) — and in that case the pipeline emits the
empty-body placeholder comment: one line with a single index-0 tab stop
holding the trailing override description or an empty default. -/
theorem c3_parse_fallback (ps : PluginSettings) (ov : Option String)
    (inline : Bool) (line trailing d dt : String) :
    ((parseDeclTry ps ov inline line).isOk = false →
      parse ps ov inline line = none) ∧
    (ps.simple_mode = true → parse ps ov inline line = none) ∧
    (createSnippet ps [] trailing =
      "\n *" ++ indentSpaces ps ++ "$\x7b0:" ++ trailing ++ "\x7d" ++ "\n" ++ " */") ∧
    (generateSnippet ps d dt [] false trailing =
      "\n *" ++ indentSpaces ps ++ "$\x7b0:" ++ trailing ++ "\x7d" ++ "\n" ++ " */" ++
        (if ps.newline_after_block then "\n" else "")) := by
  refine ⟨?_, ?_, ?_, ?_⟩
  · intro h
    unfold parse
    cases hres : parseDeclTry ps ov inline line with
    | ok r => rw [hres] at h; exact absurd h (by simp [Except.isOk, Except.toBool])
    | error e => simp [hres]
  · intro h
    unfold parse
    simp [h]
  · rfl
  · rfl

/-- Witness for c3_parse_fallback: the empty-default input realizes the
exception path, a simple-mode settings record realizes the skip path. -/
theorem c3_parse_fallback_witness :
    (parse {} none false "function f(a=) \x7b" = none) ∧
    (parse { simple_mode := true } none false "var x = 1;" = none) ∧
    (createSnippet {} [] "desc" = "\n * $\x7b0:desc\x7d\n */") := by
  refine ⟨?_, ?_, ?_⟩
  · exact (c3_parse_fallback {} none false "function f(a=) \x7b" "" "" "").1
      (by decide)
  · exact (c3_parse_fallback { simple_mode := true } none false "var x = 1;"
      "" "" "").2.1 (by decide)
  · exact (c3_parse_fallback {} none false "" "desc" "" "").2.2.1

theorem map_id_of_fixed {α : Type} (f : α → α) (l : List α)
    (h : ∀ x ∈ l, f x = x) : l.map f = l := by
  induction l with
  | nil => rfl
  | cons a t ih =>
    simp only [List.map_cons]
    rw [h a (by simp), ih (fun x hx => h x (by simp [hx]))]

/-- Claim C9, counterexample: alignTags is not idempotent.  The aligned
output of the two tag lines differs from the result of aligning it again,
because re-splitting the padded first line on single spaces yields empty
columns that are padded once more. -/
theorem c9_counterexample :
    alignTags { align_tags := some .deep } ["@p x", "@ppp x"] =
      ["@p   x", "@ppp x"] ∧
    alignTags { align_tags := some .deep } ["@p   x", "@ppp x"] =
      ["@p      x", "@ppp x"] ∧
    alignTags { align_tags := some .deep }
        (alignTags { align_tags := some .deep } ["@p x", "@ppp x"]) ≠
      alignTags { align_tags := some .deep } ["@p x", "@ppp x"] := by decide

/-- Claim C9 (amended): alignTags rewrites only lines that start with the
at sign and are not author lines, so it is the identity on sequences with
no such line; on general aligned outputs a second application is NOT a
no-op, since re-splitting an aligned tag line on single spaces treats its
padding runs as empty columns and pads again. -/
theorem c9_amended (ps : PluginSettings) (out : List String)
    (h : ∀ l ∈ out, (!(startsWithStr "@" l) || startsWithStr "@author" l) = true) :
    alignTags ps out = out := by
  simp only [alignTags]
  apply map_id_of_fixed
  intro l hl
  have hcond := h l hl
  have : (startsWithStr "@" l && !startsWithStr "@author" l) = false := by
    cases h1 : startsWithStr "@" l with
    | false => simp
    | true =>
      rw [h1] at hcond
      simp only [Bool.not_true, Bool.false_or] at hcond
      simp [hcond]
  rw [this]
  simp

/-- Witness for c9_amended at a concrete sequence of a description line and
an author line. -/
theorem c9_amended_witness :
    alignTags {} ["some description", "@author a b c"] =
      ["some description", "@author a b c"] :=
  c9_amended {} ["some description", "@author a b c"] (by decide)

/-! ## Claim C1: the tab-stop indices of the final snippet

The indices appearing in a text are read off by a left-to-right scan with
the same placeholder pattern, and the same advance past a match, as the
renumbering substitution of fixTabStops. -/

/-- The tab-stop indices of a text, scanned left to right. -/
def stopIndicesF : Nat → List Char → List Nat
  | 0, _ => []
  | _ + 1, [] => []
  | fuel + 1, x :: xs =>
    match tryStop (x :: xs) with
    | some r => r.1 :: stopIndicesF fuel r.2.2
    | none => stopIndicesF fuel xs

/-- The tab-stop index scan at full fuel. -/
def stopIndices (cs : List Char) : List Nat := stopIndicesF cs.length cs

/-- The tab-stop indices of a snippet string, in scan order. -/
def tabStopIndices (s : String) : List Nat := stopIndices s.data

/-- Placeholder-closed text: every dollar that the scan does not consume as
part of a complete placeholder is followed by a character other than the
open brace (and is not the last character).  Under this condition the scan
of a concatenation is the concatenation of the scans. -/
def wfScanF : Nat → List Char → Bool
  | 0, _ => true
  | _ + 1, [] => true
  | fuel + 1, x :: xs =>
    match tryStop (x :: xs) with
    | some r => wfScanF fuel r.2.2
    | none =>
      if x = '$' then
        match xs with
        | [] => false
        | y :: _ => if y = lbrace then false else wfScanF fuel xs
      else wfScanF fuel xs

/-- The placeholder-closedness check at full fuel. -/
def wfScan (cs : List Char) : Bool := wfScanF cs.length cs

/-- The per-line stop indices of a line list, concatenated in order. -/
def lineStops (ls : List String) : List Nat :=
  (ls.map (fun l => stopIndices l.data)).join

/-- The number of tab stops across a line list. -/
def totalStops (ls : List String) : Nat := (lineStops ls).length

theorem stopIndicesF_irrel (f1 : Nat) : ∀ (cs : List Char) (f2 : Nat),
    cs.length ≤ f1 → cs.length ≤ f2 → stopIndicesF f1 cs = stopIndicesF f2 cs := by
  induction f1 with
  | zero =>
    intro cs f2 h1 _
    have : cs = [] := List.eq_nil_of_length_eq_zero (Nat.le_zero.mp h1)
    subst this
    cases f2 <;> rfl
  | succ m ih =>
    intro cs f2 h1 h2
    cases cs with
    | nil => cases f2 <;> rfl
    | cons x xs =>
      simp only [List.length_cons] at h1 h2
      cases f2 with
      | zero => omega
      | succ g =>
        cases htr : tryStop (x :: xs) with
        | some r =>
          obtain ⟨n, content, rest⟩ := r
          have hlt := tryStop_length (x :: xs) n content rest htr
          simp only [List.length_cons] at hlt
          simp only [stopIndicesF, htr]
          rw [ih rest g (by omega) (by omega)]
        | none =>
          simp only [stopIndicesF, htr]
          rw [ih xs g (by omega) (by omega)]

theorem wfScanF_irrel (f1 : Nat) : ∀ (cs : List Char) (f2 : Nat),
    cs.length ≤ f1 → cs.length ≤ f2 → wfScanF f1 cs = wfScanF f2 cs := by
  induction f1 with
  | zero =>
    intro cs f2 h1 _
    have : cs = [] := List.eq_nil_of_length_eq_zero (Nat.le_zero.mp h1)
    subst this
    cases f2 <;> rfl
  | succ m ih =>
    intro cs f2 h1 h2
    cases cs with
    | nil => cases f2 <;> rfl
    | cons x xs =>
      simp only [List.length_cons] at h1 h2
      cases f2 with
      | zero => omega
      | succ g =>
        cases htr : tryStop (x :: xs) with
        | some r =>
          obtain ⟨n, content, rest⟩ := r
          have hlt := tryStop_length (x :: xs) n content rest htr
          simp only [List.length_cons] at hlt
          simp only [wfScanF, htr]
          rw [ih rest g (by omega) (by omega)]
        | none =>
          simp only [wfScanF, htr]
          rw [ih xs g (by omega) (by omega)]

theorem subStopsF_irrel (f1 : Nat) : ∀ (cs : List Char) (f2 c : Nat),
    cs.length ≤ f1 → cs.length ≤ f2 → subStopsF f1 c cs = subStopsF f2 c cs := by
  induction f1 with
  | zero =>
    intro cs f2 c h1 _
    have : cs = [] := List.eq_nil_of_length_eq_zero (Nat.le_zero.mp h1)
    subst this
    cases f2 <;> rfl
  | succ m ih =>
    intro cs f2 c h1 h2
    cases cs with
    | nil => cases f2 <;> rfl
    | cons x xs =>
      simp only [List.length_cons] at h1 h2
      cases f2 with
      | zero => omega
      | succ g =>
        cases htr : tryStop (x :: xs) with
        | some r =>
          obtain ⟨n, content, rest⟩ := r
          have hlt := tryStop_length (x :: xs) n content rest htr
          simp only [List.length_cons] at hlt
          simp only [subStopsF, htr]
          rw [ih rest g (c + 1) (by omega) (by omega)]
        | none =>
          simp only [subStopsF, htr]
          rw [ih xs g c (by omega) (by omega)]

theorem takeWhile_append_stop {p : Char → Bool} (ds : List Char) (z : Char)
    (w : List Char) (hds : ∀ d ∈ ds, p d = true) (hz : p z = false) :
    (ds ++ z :: w).takeWhile p = ds ∧ (ds ++ z :: w).dropWhile p = z :: w := by
  induction ds with
  | nil => simp [List.takeWhile_cons, List.dropWhile_cons, hz]
  | cons d dr ih =>
    have hd : p d = true := hds d (by simp)
    have ihr := ih (fun e he => hds e (by simp [he]))
    simp only [List.cons_append, List.takeWhile_cons, List.dropWhile_cons, hd,
      if_true, ihr.1, ihr.2]
    simp

theorem stopHead_cons (r0 : List Char) : stopHead ('$' :: lbrace :: r0) = some r0 := by
  simp [stopHead]

theorem stopHead_some_shape (cs r0 : List Char) (h : stopHead cs = some r0) :
    cs = '$' :: lbrace :: r0 := by
  cases cs with
  | nil => simp [stopHead] at h
  | cons a t =>
    cases t with
    | nil => simp [stopHead] at h
    | cons b r =>
      rw [stopHead] at h
      split at h
      · rename_i hab
        injection h with h
        subst h
        simp only [Bool.and_eq_true, decide_eq_true_eq] at hab
        rw [hab.1, hab.2]
      · exact absurd h (by simp)

theorem stopDigits_build (ds r2 : List Char) (h1 : ds ≠ [])
    (h2 : ∀ d ∈ ds, isDigit09 d = true) :
    stopDigits (ds ++ ':' :: r2) = some (digitsVal ds, r2) := by
  have hz : isDigit09 ':' = false := by decide
  have ht := takeWhile_append_stop ds ':' r2 h2 hz
  rw [stopDigits, ht.1, ht.2]
  simp [h1]

theorem stopContent_build (content rest : List Char) (h1 : content ≠ [])
    (h2 : rbrace ∉ content) :
    stopContent (content ++ rbrace :: rest) = some (content, rest) := by
  have hz : (decide (rbrace ≠ rbrace)) = false := by decide
  have hds : ∀ d ∈ content, (decide (d ≠ rbrace)) = true := by
    intro d hd
    simp only [decide_eq_true_eq]
    intro he
    exact h2 (he ▸ hd)
  have ht := takeWhile_append_stop content rbrace rest hds hz
  rw [stopContent, ht.1, ht.2]
  simp [h1]

theorem tryStop_build (ds content rest : List Char) (h1 : ds ≠ [])
    (h2 : ∀ d ∈ ds, isDigit09 d = true) (h3 : content ≠ [])
    (h4 : rbrace ∉ content) :
    tryStop ('$' :: lbrace :: (ds ++ ':' :: (content ++ rbrace :: rest))) =
      some (digitsVal ds, content, rest) := by
  rw [tryStop, stopHead_cons]
  simp only [Option.bind_eq_bind, Option.some_bind]
  rw [stopDigits_build ds (content ++ rbrace :: rest) h1 h2]
  simp only [Option.some_bind]
  rw [stopContent_build content rest h3 h4]
  rfl

theorem stopDigits_some_shape (r0 : List Char) (n : Nat) (r2 : List Char)
    (h : stopDigits r0 = some (n, r2)) :
    r0 = r0.takeWhile isDigit09 ++ ':' :: r2 ∧ r0.takeWhile isDigit09 ≠ [] ∧
      (∀ d ∈ r0.takeWhile isDigit09, isDigit09 d = true) ∧
      n = digitsVal (r0.takeWhile isDigit09) := by
  rw [stopDigits] at h
  split at h
  · exact absurd h (by simp)
  · rename_i hds
    split at h
    · rename_i r2x heq
      injection h with h
      injection h with h1 h2
      subst h2
      refine ⟨?_, hds, fun d hd => List.mem_takeWhile_imp hd, h1.symm⟩
      have e := List.takeWhile_append_dropWhile (p := isDigit09) (l := r0)
      rw [heq] at e
      exact e.symm
    · exact absurd h (by simp)

theorem stopContent_some_shape (r2 content r4 : List Char)
    (h : stopContent r2 = some (content, r4)) :
    r2 = content ++ rbrace :: r4 ∧ content ≠ [] ∧ rbrace ∉ content := by
  rw [stopContent] at h
  split at h
  · exact absurd h (by simp)
  · rename_i hcne
    split at h
    · rename_i cc r4x heq
      split at h
      · rename_i hcc
        injection h with h
        injection h with h1 h2
        subst h1
        subst h2
        subst hcc
        refine ⟨?_, hcne, ?_⟩
        · have e := List.takeWhile_append_dropWhile
            (p := fun c => decide (c ≠ rbrace)) (l := r2)
          rw [heq] at e
          exact e.symm
        · intro hmem
          have := List.mem_takeWhile_imp hmem
          simp at this
      · exact absurd h (by simp)
    · exact absurd h (by simp)

theorem tryStop_some_shape (cs : List Char) (n : Nat) (content rest : List Char)
    (h : tryStop cs = some (n, content, rest)) :
    ∃ ds, cs = '$' :: lbrace :: (ds ++ ':' :: (content ++ rbrace :: rest)) ∧
      ds ≠ [] ∧ (∀ d ∈ ds, isDigit09 d = true) ∧ n = digitsVal ds ∧
      content ≠ [] ∧ rbrace ∉ content := by
  rw [tryStop] at h
  simp only [Option.bind_eq_bind, Option.bind_eq_some, Option.map_eq_some'] at h
  obtain ⟨r0, h0, ⟨n1, r2⟩, h1, ⟨c1, r4⟩, h2, h3⟩ := h
  have h3a : n1 = n := congrArg (fun p => p.1) h3
  have h3b : c1 = content := congrArg (fun p => p.2.1) h3
  have h3c : r4 = rest := congrArg (fun p => p.2.2) h3
  subst h3a
  subst h3b
  subst h3c
  have e0 := stopHead_some_shape cs r0 h0
  have hd := stopDigits_some_shape r0 n1 r2 h1
  have hc := stopContent_some_shape r2 c1 r4 h2
  refine ⟨r0.takeWhile isDigit09, ?_, hd.2.1, hd.2.2.1, hd.2.2.2, hc.2.1, hc.2.2⟩
  have hr0 : r0 = r0.takeWhile isDigit09 ++ ':' :: (c1 ++ rbrace :: r4) := by
    conv_lhs => rw [hd.1]
    rw [hc.1]
  exact e0.trans (congrArg (fun l => '$' :: lbrace :: l) hr0)

theorem tryStop_some_head (x : Char) (xs : List Char) (r : Nat × List Char × List Char)
    (h : tryStop (x :: xs) = some r) : x = '$' := by
  obtain ⟨n, content, rest⟩ := r
  obtain ⟨ds, hshape, -⟩ := tryStop_some_shape (x :: xs) n content rest h
  have hh : (x :: xs).head? = some '$' := by rw [hshape]; rfl
  simpa using hh

theorem tryStop_some_rb (cs : List Char) (r : Nat × List Char × List Char)
    (h : tryStop cs = some r) : rbrace ∈ cs := by
  obtain ⟨n, content, rest⟩ := r
  obtain ⟨ds, hshape, -⟩ := tryStop_some_shape cs n content rest h
  rw [hshape]
  simp

theorem tryStop_not_dollar (x : Char) (xs : List Char) (hx : x ≠ '$') :
    tryStop (x :: xs) = none := by
  rw [tryStop]
  have : stopHead (x :: xs) = none := by
    cases xs with
    | nil => rfl
    | cons y ys => simp [stopHead, hx]
  rw [this]
  rfl

theorem tryStop_dollar_not_brace (y : Char) (w : List Char) (hy : y ≠ lbrace) :
    tryStop ('$' :: y :: w) = none := by
  rw [tryStop]
  have : stopHead ('$' :: y :: w) = none := by simp [stopHead, hy]
  rw [this]
  rfl

theorem tryStop_append (s b : List Char) (n : Nat) (content rest : List Char)
    (h : tryStop s = some (n, content, rest)) :
    tryStop (s ++ b) = some (n, content, rest ++ b) := by
  obtain ⟨ds, hshape, h1, h2, h3, h4, h5⟩ := tryStop_some_shape s n content rest h
  subst hshape
  have : ('$' :: lbrace :: (ds ++ ':' :: (content ++ rbrace :: rest))) ++ b =
      '$' :: lbrace :: (ds ++ ':' :: (content ++ rbrace :: (rest ++ b))) := by
    simp
  rw [this, tryStop_build ds content (rest ++ b) h1 h2 h4 h5, h3]

theorem digitChar_facts (k : Nat) (h : k < 10) :
    isDigit09 (Char.ofNat (48 + k)) = true ∧ (Char.ofNat (48 + k)).toNat = 48 + k := by
  interval_cases k <;> exact ⟨by decide, by decide⟩

theorem natToCharsF_irrel (f1 : Nat) : ∀ (n f2 : Nat),
    n < f1 → n < f2 → natToCharsF f1 n = natToCharsF f2 n := by
  induction f1 with
  | zero => intro n f2 h1 _; omega
  | succ m ih =>
    intro n f2 h1 h2
    cases f2 with
    | zero => omega
    | succ g =>
      simp only [natToCharsF]
      by_cases hn : n < 10
      · simp [hn]
      · simp only [if_neg hn]
        rw [ih (n / 10) g (by omega) (by omega)]

theorem natToChars_ne_nil (n : Nat) : natToChars n ≠ [] := by
  rw [natToChars, natToCharsF]
  by_cases hn : n < 10
  · simp [hn]
  · simp [hn]

theorem natToChars_digits (n : Nat) : ∀ d ∈ natToChars n, isDigit09 d = true := by
  induction n using Nat.strong_induction_on with
  | _ n ih =>
    intro d hd
    rw [natToChars, natToCharsF] at hd
    by_cases hn : n < 10
    · rw [if_pos hn] at hd
      simp only [List.mem_singleton] at hd
      subst hd
      exact (digitChar_facts n hn).1
    · rw [if_neg hn] at hd
      rw [natToCharsF_irrel n (n / 10) (n / 10 + 1) (by omega) (by omega)] at hd
      rw [List.mem_append] at hd
      cases hd with
      | inl hmem => exact ih (n / 10) (by omega) d hmem
      | inr hmem =>
        simp only [List.mem_singleton] at hmem
        subst hmem
        exact (digitChar_facts (n % 10) (by omega)).1

theorem digitsVal_snoc (ds : List Char) (d : Char) :
    digitsVal (ds ++ [d]) = 10 * digitsVal ds + (d.toNat - 48) := by
  rw [digitsVal, digitsVal, List.foldl_append]
  rfl

theorem digitsVal_natToChars (n : Nat) : digitsVal (natToChars n) = n := by
  induction n using Nat.strong_induction_on with
  | _ n ih =>
    rw [natToChars, natToCharsF]
    by_cases hn : n < 10
    · rw [if_pos hn]
      show digitsVal [Char.ofNat (48 + n)] = n
      rw [digitsVal]
      simp only [List.foldl_cons, List.foldl_nil]
      rw [(digitChar_facts n hn).2]
      omega
    · rw [if_neg hn]
      rw [natToCharsF_irrel n (n / 10) (n / 10 + 1) (by omega) (by omega)]
      rw [digitsVal_snoc]
      rw [show natToCharsF (n / 10 + 1) (n / 10) = natToChars (n / 10) from rfl]
      rw [ih (n / 10) (by omega)]
      rw [(digitChar_facts (n % 10) (by omega)).2]
      omega

theorem stopIndices_match (x : Char) (xs : List Char) (n : Nat)
    (content rest : List Char) (h : tryStop (x :: xs) = some (n, content, rest)) :
    stopIndices (x :: xs) = n :: stopIndices rest := by
  have hlt := tryStop_length (x :: xs) n content rest h
  simp only [List.length_cons] at hlt
  rw [stopIndices]
  simp only [List.length_cons, stopIndicesF, h]
  rw [stopIndicesF_irrel xs.length rest rest.length (by omega) le_rfl]
  rfl

theorem stopIndices_none (x : Char) (xs : List Char)
    (h : tryStop (x :: xs) = none) : stopIndices (x :: xs) = stopIndices xs := by
  rw [stopIndices]
  simp only [List.length_cons, stopIndicesF, h]
  rfl

theorem wfScan_match (x : Char) (xs : List Char) (n : Nat)
    (content rest : List Char) (h : tryStop (x :: xs) = some (n, content, rest)) :
    wfScan (x :: xs) = wfScan rest := by
  have hlt := tryStop_length (x :: xs) n content rest h
  simp only [List.length_cons] at hlt
  rw [wfScan]
  simp only [List.length_cons, wfScanF, h]
  rw [wfScanF_irrel xs.length rest rest.length (by omega) le_rfl]
  rfl

theorem wfScan_none_notdollar (x : Char) (xs : List Char)
    (h : tryStop (x :: xs) = none) (hx : x ≠ '$') :
    wfScan (x :: xs) = wfScan xs := by
  rw [wfScan]
  simp only [List.length_cons, wfScanF, h, if_neg hx]
  rfl

theorem wfScan_none_dollar (xs : List Char)
    (h : tryStop ('$' :: xs) = none) (hwf : wfScan ('$' :: xs) = true) :
    ∃ y w, xs = y :: w ∧ y ≠ lbrace ∧ wfScan xs = true := by
  cases xs with
  | nil =>
    rw [wfScan] at hwf
    simp only [List.length_cons, wfScanF, h, eq_self_iff_true, if_true] at hwf
    exact absurd hwf (by simp)
  | cons y w =>
    rw [wfScan] at hwf
    simp only [List.length_cons, wfScanF, h, eq_self_iff_true, if_true] at hwf
    by_cases hy : y = lbrace
    · rw [if_pos hy] at hwf
      exact absurd hwf (by simp)
    · rw [if_neg hy] at hwf
      exact ⟨y, w, rfl, hy, hwf⟩

theorem wfScan_none_intro (x : Char) (xs : List Char)
    (h : tryStop (x :: xs) = none) (h2 : wfScan xs = true)
    (h3 : x = '$' → ∃ y w, xs = y :: w ∧ y ≠ lbrace) :
    wfScan (x :: xs) = true := by
  by_cases hx : x = '$'
  · obtain ⟨y, w, hxs, hy⟩ := h3 hx
    subst hxs
    subst hx
    rw [wfScan]
    simp only [List.length_cons, wfScanF, h, eq_self_iff_true, if_true, if_neg hy]
    exact h2
  · rw [wfScan]
    simp only [List.length_cons, wfScanF, h, if_neg hx]
    exact h2

theorem subStops_match (x : Char) (xs : List Char) (n : Nat)
    (content rest : List Char) (c : Nat)
    (h : tryStop (x :: xs) = some (n, content, rest)) :
    subStops c (x :: xs) =
      ('$' :: lbrace ::
        (natToChars c ++ ':' :: (content ++ rbrace :: (subStops (c + 1) rest).1)),
       (subStops (c + 1) rest).2) := by
  have hlt := tryStop_length (x :: xs) n content rest h
  simp only [List.length_cons] at hlt
  rw [subStops]
  simp only [List.length_cons, subStopsF, h]
  rw [subStopsF_irrel xs.length rest rest.length (c + 1) (by omega) le_rfl]
  rcases hp : subStops (c + 1) rest with ⟨o, k⟩
  rw [show subStopsF rest.length (c + 1) rest = subStops (c + 1) rest from rfl, hp]

theorem subStops_none (x : Char) (xs : List Char) (c : Nat)
    (h : tryStop (x :: xs) = none) :
    subStops c (x :: xs) = (x :: (subStops c xs).1, (subStops c xs).2) := by
  rw [subStops]
  simp only [List.length_cons, subStopsF, h]
  rcases hp : subStops c xs with ⟨o, k⟩
  rw [show subStopsF xs.length c xs = subStops c xs from rfl, hp]

theorem subStops_head (x : Char) (xs : List Char) (c : Nat) :
    ((subStops c (x :: xs)).1).head? = some x := by
  cases htr : tryStop (x :: xs) with
  | some r =>
    obtain ⟨n, content, rest⟩ := r
    have hx := tryStop_some_head x xs (n, content, rest) htr
    rw [subStops_match x xs n content rest c htr, hx]
    rfl
  | none =>
    rw [subStops_none x xs c htr]
    rfl

theorem subStops_skip (x : Char) (xs : List Char) (c : Nat) (hx : x ≠ '$') :
    subStops c (x :: xs) = (x :: (subStops c xs).1, (subStops c xs).2) :=
  subStops_none x xs c (tryStop_not_dollar x xs hx)

theorem subStops_verbatim (ds : List Char) (h : ∀ d ∈ ds, d ≠ '$') :
    ∀ (t : List Char) (c : Nat),
    subStops c (ds ++ t) = (ds ++ (subStops c t).1, (subStops c t).2) := by
  induction ds with
  | nil => intro t c; simp
  | cons d dr ih =>
    intro t c
    rw [List.cons_append, subStops_skip d (dr ++ t) c (h d (by simp))]
    rw [ih (fun e he => h e (by simp [he])) t c]
    simp

theorem subStops_nobrace (t : List Char) (h : rbrace ∉ t) (c : Nat) :
    subStops c t = (t, c) := by
  induction t with
  | nil => rfl
  | cons x xs ih =>
    have htr : tryStop (x :: xs) = none := by
      cases htr2 : tryStop (x :: xs) with
      | some r => exact absurd (tryStop_some_rb (x :: xs) r htr2) h
      | none => rfl
    rw [subStops_none x xs c htr]
    rw [ih (fun hm => h (by simp [hm]))]

theorem digit_ne_dollar (d : Char) (h : isDigit09 d = true) : d ≠ '$' := by
  intro he
  subst he
  exact absurd h (by decide)

theorem dropWhile_head_false {p : Char → Bool} (l : List Char) (z : Char)
    (r : List Char) (h : l.dropWhile p = z :: r) : p z = false := by
  induction l with
  | nil => simp at h
  | cons a t ih =>
    rw [List.dropWhile_cons] at h
    split at h
    · exact ih h
    · rename_i hpa
      injection h with h1 _
      subst h1
      simp only [Bool.not_eq_true] at hpa
      exact hpa

theorem stopDigits_head_nondigit (z : Char) (w : List Char)
    (hz : isDigit09 z = false) : stopDigits (z :: w) = none := by
  rw [stopDigits]
  simp [List.takeWhile_cons, hz]

theorem stopDigits_build_none (ds : List Char) (z : Char) (w : List Char)
    (hdig : ∀ d ∈ ds, isDigit09 d = true) (hz : isDigit09 z = false)
    (hzc : z ≠ ':') : stopDigits (ds ++ z :: w) = none := by
  have ht := takeWhile_append_stop ds z w hdig hz
  rw [stopDigits, ht.1, ht.2]
  by_cases hd0 : ds = []
  · simp [hd0]
  · rw [if_neg hd0]
    split
    · rename_i r2 heq
      injection heq with he1 _
      exact absurd he1 hzc
    · rfl

theorem stopContent_rb (w : List Char) : stopContent (rbrace :: w) = none := by
  rw [stopContent]
  simp [List.takeWhile_cons]

theorem stopDigits_none_sub (r0 : List Char) (c : Nat)
    (h : stopDigits r0 = none) : stopDigits (subStops c r0).1 = none := by
  cases r0 with
  | nil => rfl
  | cons z w =>
    by_cases hz : isDigit09 z = true
    · cases hdw : (z :: w).dropWhile isDigit09 with
      | nil =>
        have hall : ∀ d ∈ z :: w, isDigit09 d = true :=
          List.dropWhile_eq_nil_iff.mp hdw
        have hnb : rbrace ∉ z :: w := by
          intro hm
          exact absurd (hall rbrace hm) (by decide)
        rw [subStops_nobrace (z :: w) hnb c]
        exact h
      | cons zz r =>
        have hzz : isDigit09 zz = false :=
          dropWhile_head_false (z :: w) zz r hdw
        by_cases hcol : zz = ':'
        · subst hcol
          have hsome : stopDigits (z :: w) =
              some (digitsVal ((z :: w).takeWhile isDigit09), r) := by
            rw [stopDigits, hdw]
            have : (z :: w).takeWhile isDigit09 ≠ [] := by
              simp [List.takeWhile_cons, hz]
            simp [this]
          rw [hsome] at h
          exact absurd h (by simp)
        · have hsplit : (z :: w) = (z :: w).takeWhile isDigit09 ++ zz :: r := by
            conv_lhs => rw [← List.takeWhile_append_dropWhile (p := isDigit09)
              (l := z :: w)]
            rw [hdw]
          have hdig : ∀ d ∈ (z :: w).takeWhile isDigit09, isDigit09 d = true :=
            fun d hd => List.mem_takeWhile_imp hd
          have hnd : ∀ d ∈ (z :: w).takeWhile isDigit09, d ≠ '$' :=
            fun d hd => digit_ne_dollar d (hdig d hd)
          rw [show subStops c (z :: w) =
              subStops c ((z :: w).takeWhile isDigit09 ++ zz :: r) from by
            rw [← hsplit]]
          rw [subStops_verbatim ((z :: w).takeWhile isDigit09) hnd (zz :: r) c]
          have hh := subStops_head zz r c
          cases hout : (subStops c (zz :: r)).1 with
          | nil => rw [hout] at hh; simp at hh
          | cons a b =>
            rw [hout] at hh
            simp only [List.head?_cons, Option.some_inj] at hh
            rw [hh]
            exact stopDigits_build_none ((z :: w).takeWhile isDigit09) zz b
              hdig hzz hcol
    · have hz2 : isDigit09 z = false := by
        simpa using hz
      have hh := subStops_head z w c
      cases hout : (subStops c (z :: w)).1 with
      | nil => rw [hout] at hh; simp at hh
      | cons a b =>
        rw [hout] at hh
        simp only [List.head?_cons, Option.some_inj] at hh
        rw [hh]
        exact stopDigits_head_nondigit z b hz2

theorem stopContent_none_sub (r2 : List Char) (c : Nat)
    (h : stopContent r2 = none) : stopContent (subStops c r2).1 = none := by
  cases r2 with
  | nil => rfl
  | cons z w =>
    by_cases hzb : z = rbrace
    · subst hzb
      have hh := subStops_head rbrace w c
      cases hout : (subStops c (rbrace :: w)).1 with
      | nil => rw [hout] at hh; simp at hh
      | cons a b =>
        rw [hout] at hh
        simp only [List.head?_cons, Option.some_inj] at hh
        rw [hh]
        exact stopContent_rb b
    · have hnb : rbrace ∉ z :: w := by
        intro hm
        cases hdw : (z :: w).dropWhile (fun x => decide (x ≠ rbrace)) with
        | nil =>
          have hall := List.dropWhile_eq_nil_iff.mp hdw
          have := hall rbrace hm
          simp at this
        | cons zz r =>
          have hzz := dropWhile_head_false (z :: w) zz r hdw
          simp only [decide_eq_false_iff_not, Decidable.not_not] at hzz
          subst hzz
          have hsome : stopContent (z :: w) =
              some ((z :: w).takeWhile (fun x => decide (x ≠ rbrace)), r) := by
            rw [stopContent, hdw]
            have hzt : (decide (z ≠ rbrace)) = true := by simpa using hzb
            have hne2 : (z :: w).takeWhile (fun x => decide (x ≠ rbrace)) ≠ [] := by
              rw [List.takeWhile_cons, if_pos hzt]
              simp
            simp [hne2, hzb]
          rw [hsome] at h
          exact absurd h (by simp)
      rw [subStops_nobrace (z :: w) hnb c]
      exact h

theorem tryStop_none_sub (x : Char) (xs : List Char) (c : Nat)
    (h : tryStop (x :: xs) = none) :
    tryStop (x :: (subStops c xs).1) = none := by
  by_cases hx : x = '$'
  · subst hx
    cases xs with
    | nil => rfl
    | cons y ys =>
      by_cases hy : y = lbrace
      · subst hy
        rw [subStops_skip lbrace ys c (by decide)]
        rw [tryStop, stopHead_cons]
        rw [tryStop, stopHead_cons] at h
        simp only [Option.bind_eq_bind, Option.some_bind] at h ⊢
        cases hd : stopDigits ys with
        | none =>
          rw [stopDigits_none_sub ys c hd]
          rfl
        | some nr =>
          obtain ⟨n, r2⟩ := nr
          rw [hd] at h
          simp only [Option.some_bind] at h
          have hcn : stopContent r2 = none := by
            cases hct : stopContent r2 with
            | none => rfl
            | some cr =>
              rw [hct] at h
              simp at h
          have hshape := stopDigits_some_shape ys n r2 hd
          have hdig : ∀ d ∈ ys.takeWhile isDigit09, isDigit09 d = true :=
            hshape.2.2.1
          have hnd : ∀ d ∈ ys.takeWhile isDigit09, d ≠ '$' :=
            fun d hdm => digit_ne_dollar d (hdig d hdm)
          rw [show subStops c ys =
              subStops c (ys.takeWhile isDigit09 ++ ':' :: r2) from by
            rw [← hshape.1]]
          rw [subStops_verbatim (ys.takeWhile isDigit09) hnd (':' :: r2) c]
          rw [subStops_skip ':' r2 c (by decide)]
          rw [stopDigits_build (ys.takeWhile isDigit09) ((subStops c r2).1)
            hshape.2.1 hdig]
          simp only [Option.some_bind]
          rw [stopContent_none_sub r2 c hcn]
          rfl
      · have hh := subStops_head y ys c
        cases hout : (subStops c (y :: ys)).1 with
        | nil => rw [hout] at hh; simp at hh
        | cons a b =>
          rw [hout] at hh
          simp only [List.head?_cons, Option.some_inj] at hh
          rw [hh]
          exact tryStop_dollar_not_brace y b hy
  · exact tryStop_not_dollar x ((subStops c xs).1) hx

theorem range1_append (a m : Nat) : ∀ n : Nat,
    List.range' a m ++ List.range' (a + m) n = List.range' a (m + n) := by
  induction m generalizing a with
  | zero => intro n; simp
  | succ k ih =>
    intro n
    have e1 : List.range' a (k + 1) = a :: List.range' (a + 1) k := by
      simp [List.range']
    have e2 : List.range' a (k + 1 + n) = a :: List.range' (a + 1) (k + n) := by
      rw [show k + 1 + n = (k + n) + 1 by omega]
      simp [List.range']
    rw [e1, e2, List.cons_append]
    rw [show a + (k + 1) = (a + 1) + k by omega]
    rw [ih (a + 1) n]

/-- The renumbering substitution of fixTabStops on one line: the rewritten
line's stop indices are consecutive from the incoming counter, the counter
advances by the number of stops, and placeholder-closedness is preserved. -/
theorem subStops_spec (fuel : Nat) : ∀ (cs : List Char), cs.length ≤ fuel →
    ∀ (c : Nat),
    stopIndices (subStops c cs).1 = List.range' c (stopIndices cs).length ∧
    (subStops c cs).2 = c + (stopIndices cs).length ∧
    (wfScan cs = true → wfScan (subStops c cs).1 = true) := by
  induction fuel with
  | zero =>
    intro cs hcs c
    have : cs = [] := List.eq_nil_of_length_eq_zero (Nat.le_zero.mp hcs)
    subst this
    refine ⟨rfl, rfl, fun _ => rfl⟩
  | succ m ih =>
    intro cs hcs c
    cases cs with
    | nil => refine ⟨rfl, rfl, fun _ => rfl⟩
    | cons x xs =>
      simp only [List.length_cons] at hcs
      cases htr : tryStop (x :: xs) with
      | some r =>
        obtain ⟨k, content, rest⟩ := r
        have hlt := tryStop_length (x :: xs) k content rest htr
        simp only [List.length_cons] at hlt
        obtain ⟨ds, hshape, hne, hdig, hval, hcne, hcnb⟩ :=
          tryStop_some_shape (x :: xs) k content rest htr
        have ihr := ih rest (by omega) (c + 1)
        rw [subStops_match x xs k content rest c htr]
        have htr2 : tryStop ('$' :: lbrace ::
            (natToChars c ++ ':' :: (content ++ rbrace ::
              (subStops (c + 1) rest).1))) =
            some (digitsVal (natToChars c), content, (subStops (c + 1) rest).1) :=
          tryStop_build (natToChars c) content ((subStops (c + 1) rest).1)
            (natToChars_ne_nil c) (natToChars_digits c) hcne hcnb
        rw [digitsVal_natToChars c] at htr2
        refine ⟨?_, ?_, ?_⟩
        · rw [stopIndices_match '$' (lbrace ::
            (natToChars c ++ ':' :: (content ++ rbrace ::
              (subStops (c + 1) rest).1))) c content ((subStops (c + 1) rest).1)
            htr2]
          rw [ihr.1]
          rw [stopIndices_match x xs k content rest htr]
          simp only [List.length_cons]
          have : List.range' c ((stopIndices rest).length + 1) =
              c :: List.range' (c + 1) (stopIndices rest).length := by
            simp [List.range']
          rw [this]
        · rw [ihr.2.1]
          rw [stopIndices_match x xs k content rest htr]
          simp only [List.length_cons]
          omega
        · intro hwf
          rw [wfScan_match '$' (lbrace ::
            (natToChars c ++ ':' :: (content ++ rbrace ::
              (subStops (c + 1) rest).1))) c content ((subStops (c + 1) rest).1)
            htr2]
          exact ihr.2.2 ((wfScan_match x xs k content rest htr) ▸ hwf)
      | none =>
        have ihx := ih xs (by omega) c
        rw [subStops_none x xs c htr]
        have htr2 : tryStop (x :: (subStops c xs).1) = none :=
          tryStop_none_sub x xs c htr
        refine ⟨?_, ?_, ?_⟩
        · rw [stopIndices_none x ((subStops c xs).1) htr2, ihx.1,
            stopIndices_none x xs htr]
        · rw [ihx.2.1, stopIndices_none x xs htr]
        · intro hwf
          by_cases hx : x = '$'
          · subst hx
            obtain ⟨y, w, hxs, hy, hwfxs⟩ := wfScan_none_dollar xs htr hwf
            refine wfScan_none_intro '$' ((subStops c xs).1) htr2
              (ihx.2.2 hwfxs) ?_
            intro _
            have hh := subStops_head y w c
            rw [← hxs] at hh
            cases hout : (subStops c xs).1 with
            | nil => rw [hout] at hh; simp at hh
            | cons a b =>
              rw [hout] at hh
              simp only [List.head?_cons, Option.some_inj] at hh
              exact ⟨a, b, rfl, hh ▸ hy⟩
          · have hwfxs : wfScan xs = true := by
              rw [wfScan_none_notdollar x xs htr hx] at hwf
              exact hwf
            exact wfScan_none_intro x ((subStops c xs).1) htr2
              (ihx.2.2 hwfxs) (fun hxd => absurd hxd hx)

/-- fixTabStops threads the counter across lines: the concatenated stop
indices of the output are consecutive from the incoming counter. -/
theorem fixLines_cons (l : String) (ls : List String) (c : Nat) :
    fixLines c (l :: ls) =
      (String.mk (subStops c l.data).1 ::
        (fixLines (subStops c l.data).2 ls).1,
       (fixLines (subStops c l.data).2 ls).2) := by
  rw [fixLines]

theorem fixLines_spec : ∀ (ls : List String) (c : Nat),
    lineStops (fixLines c ls).1 = List.range' c (totalStops ls) ∧
    (fixLines c ls).2 = c + totalStops ls ∧
    ((∀ l ∈ ls, wfScan l.data = true) →
      ∀ l2 ∈ (fixLines c ls).1, wfScan l2.data = true) := by
  intro ls
  induction ls with
  | nil =>
    intro c
    refine ⟨rfl, rfl, fun _ l2 hl2 => absurd hl2 (by simp [fixLines])⟩
  | cons l lt ih =>
    intro c
    have hline := subStops_spec l.data.length l.data le_rfl c
    have ihr := ih (subStops c l.data).2
    rw [fixLines_cons l lt c]
    have hts : totalStops (l :: lt) = (stopIndices l.data).length + totalStops lt := by
      rw [totalStops, lineStops]
      simp [lineStops, totalStops]
    refine ⟨?_, ?_, ?_⟩
    · have hj : lineStops (String.mk (subStops c l.data).1 ::
          (fixLines (subStops c l.data).2 lt).1) =
          stopIndices (subStops c l.data).1 ++
            lineStops (fixLines (subStops c l.data).2 lt).1 := by
        rw [lineStops, lineStops]
        simp
      rw [hj, hline.1, ihr.1, hline.2.1, hts]
      exact range1_append c (stopIndices l.data).length (totalStops lt)
    · rw [ihr.2.1, hline.2.1, hts]
      omega
    · intro hwf l2 hl2
      simp only [List.mem_cons] at hl2
      cases hl2 with
      | inl he =>
        subst he
        exact hline.2.2 (hwf l (by simp))
      | inr hm =>
        exact ihr.2.2 (fun e he => hwf e (by simp [he])) l2 hm

/-- On placeholder-closed text the scan distributes over concatenation. -/
theorem stopIndices_append_wf (fuel : Nat) : ∀ (a : List Char),
    a.length ≤ fuel → wfScan a = true → ∀ (b : List Char),
    stopIndices (a ++ b) = stopIndices a ++ stopIndices b := by
  induction fuel with
  | zero =>
    intro a ha _ b
    have : a = [] := List.eq_nil_of_length_eq_zero (Nat.le_zero.mp ha)
    subst this
    rfl
  | succ m ih =>
    intro a ha hwf b
    cases a with
    | nil => rfl
    | cons x xs =>
      simp only [List.length_cons] at ha
      cases htr : tryStop (x :: xs) with
      | some r =>
        obtain ⟨k, content, rest⟩ := r
        have hlt := tryStop_length (x :: xs) k content rest htr
        simp only [List.length_cons] at hlt
        have htr2 : tryStop ((x :: xs) ++ b) = some (k, content, rest ++ b) :=
          tryStop_append (x :: xs) b k content rest htr
        rw [List.cons_append] at htr2
        rw [List.cons_append]
        rw [stopIndices_match x (xs ++ b) k content (rest ++ b) htr2]
        rw [stopIndices_match x xs k content rest htr]
        rw [ih rest (by omega) ((wfScan_match x xs k content rest htr) ▸ hwf) b]
        rfl
      | none =>
        by_cases hx : x = '$'
        · subst hx
          obtain ⟨y, w, hxs, hy, hwfxs⟩ := wfScan_none_dollar xs htr hwf
          have htr2 : tryStop ('$' :: (xs ++ b)) = none := by
            rw [hxs, List.cons_append]
            exact tryStop_dollar_not_brace y (w ++ b) hy
          rw [List.cons_append]
          rw [stopIndices_none '$' (xs ++ b) htr2]
          rw [stopIndices_none '$' xs htr]
          exact ih xs (by omega) hwfxs b
        · have htr2 : tryStop (x :: (xs ++ b)) = none :=
            tryStop_not_dollar x (xs ++ b) hx
          rw [List.cons_append]
          rw [stopIndices_none x (xs ++ b) htr2]
          rw [stopIndices_none x xs htr]
          have hwfxs : wfScan xs = true := by
            rw [wfScan_none_notdollar x xs htr hx] at hwf
            exact hwf
          exact ih xs (by omega) hwfxs b

/-- Dollar-free text is invisible to the scan and placeholder-closed. -/
theorem stopIndices_nodollar (p : List Char) (hp : ∀ d ∈ p, d ≠ '$') :
    ∀ (t : List Char), stopIndices (p ++ t) = stopIndices t := by
  induction p with
  | nil => intro t; simp
  | cons x xr ih =>
    intro t
    rw [List.cons_append]
    rw [stopIndices_none x (xr ++ t)
      (tryStop_not_dollar x (xr ++ t) (hp x (by simp)))]
    exact ih (fun d hd => hp d (by simp [hd])) t

theorem wfScan_nodollar_pre (p : List Char) (hp : ∀ d ∈ p, d ≠ '$') :
    ∀ (t : List Char), wfScan (p ++ t) = wfScan t := by
  induction p with
  | nil => intro t; simp
  | cons x xr ih =>
    intro t
    rw [List.cons_append]
    rw [wfScan_none_notdollar x (xr ++ t)
      (tryStop_not_dollar x (xr ++ t) (hp x (by simp))) (hp x (by simp))]
    exact ih (fun d hd => hp d (by simp [hd])) t

theorem lineStops_cons (l : String) (ls : List String) :
    lineStops (l :: ls) = stopIndices l.data ++ lineStops ls := by
  rw [lineStops, lineStops]
  simp

/-- The spacer insertion of createSnippet only adds blank lines, which hold
no tab stop, so the concatenated stop indices are unchanged. -/
theorem spacerAllAux_cons_some (b : Bool) (lt : Option String) (l : String)
    (lr : List String) (t : String) (htag : tagOf l = some t) :
    spacerAllAux b lt (l :: lr) =
      if lt ≠ some t then
        (if b && decide (lt = none) then [l] else ["", l]) ++
          spacerAllAux b (some t) lr
      else l :: spacerAllAux b lt lr := by
  rw [spacerAllAux, htag]

theorem spacerAllAux_cons_none (b : Bool) (lt : Option String) (l : String)
    (lr : List String) (htag : tagOf l = none) :
    spacerAllAux b lt (l :: lr) = l :: spacerAllAux b lt lr := by
  rw [spacerAllAux, htag]

theorem spacerAll_stops (b : Bool) : ∀ (ls : List String) (lt : Option String),
    lineStops (spacerAllAux b lt ls) = lineStops ls ∧
    ((∀ l ∈ ls, wfScan l.data = true) →
      ∀ l2 ∈ spacerAllAux b lt ls, wfScan l2.data = true) := by
  intro ls
  induction ls with
  | nil => exact fun lt => ⟨rfl, fun _ l2 hl2 => absurd hl2 (by simp [spacerAllAux])⟩
  | cons l lr ih =>
    intro lt
    cases htag : tagOf l with
    | some t =>
      rw [spacerAllAux_cons_some b lt l lr t htag]
      by_cases hlast : lt ≠ some t
      · rw [if_pos hlast]
        by_cases hfd : (b && decide (lt = none)) = true
        · rw [if_pos hfd]
          constructor
          · rw [List.singleton_append, lineStops_cons, lineStops_cons, (ih (some t)).1]
          · intro hwf l2 hl2
            simp only [List.singleton_append, List.mem_cons] at hl2
            cases hl2 with
            | inl he => exact hwf l2 (by simp [he])
            | inr hm => exact (ih (some t)).2 (fun e he => hwf e (by simp [he])) l2 hm
        · rw [if_neg hfd]
          constructor
          · rw [List.cons_append, List.singleton_append, lineStops_cons, lineStops_cons, lineStops_cons, (ih (some t)).1]
            rfl
          · intro hwf l2 hl2
            simp only [List.cons_append, List.singleton_append, List.mem_cons] at hl2
            rcases hl2 with he | he | hm
            · subst he; rfl
            · exact hwf l2 (by simp [he])
            · exact (ih (some t)).2 (fun e he => hwf e (by simp [he])) l2 hm
      · rw [if_neg hlast]
        constructor
        · rw [lineStops_cons, lineStops_cons, (ih lt).1]
        · intro hwf l2 hl2
          simp only [List.mem_cons] at hl2
          cases hl2 with
          | inl he => exact hwf l2 (by simp [he])
          | inr hm => exact (ih lt).2 (fun e he => hwf e (by simp [he])) l2 hm
    | none =>
      rw [spacerAllAux_cons_none b lt l lr htag]
      constructor
      · rw [lineStops_cons, lineStops_cons, (ih lt).1]
      · intro hwf l2 hl2
        simp only [List.mem_cons] at hl2
        cases hl2 with
        | inl he => exact hwf l2 (by simp [he])
        | inr hm => exact (ih lt).2 (fun e he => hwf e (by simp [he])) l2 hm

theorem spacerAfterDescAux_cons_some (l : String) (lr : List String)
    (t : String) (htag : tagOf l = some t) :
    spacerAfterDescAux (l :: lr) = "" :: l :: lr := by
  rw [spacerAfterDescAux, htag]

theorem spacerAfterDescAux_cons_none (l : String) (lr : List String)
    (htag : tagOf l = none) :
    spacerAfterDescAux (l :: lr) = l :: spacerAfterDescAux lr := by
  rw [spacerAfterDescAux, htag]

theorem spacerAfterDesc_stops : ∀ (ls : List String),
    lineStops (spacerAfterDescAux ls) = lineStops ls ∧
    ((∀ l ∈ ls, wfScan l.data = true) →
      ∀ l2 ∈ spacerAfterDescAux ls, wfScan l2.data = true) := by
  intro ls
  induction ls with
  | nil => exact ⟨rfl, fun _ l2 hl2 => absurd hl2 (by simp [spacerAfterDescAux])⟩
  | cons l lr ih =>
    cases htag : tagOf l with
    | some t =>
      rw [spacerAfterDescAux_cons_some l lr t htag]
      constructor
      · rw [lineStops_cons, lineStops_cons]
        rfl
      · intro hwf l2 hl2
        simp only [List.mem_cons] at hl2
        rcases hl2 with he | he | hm
        · subst he; rfl
        · exact hwf l2 (by simp [he])
        · exact hwf l2 (by simp [hm])
    | none =>
      rw [spacerAfterDescAux_cons_none l lr htag]
      constructor
      · rw [lineStops_cons, lineStops_cons, ih.1]
      · intro hwf l2 hl2
        simp only [List.mem_cons] at hl2
        cases hl2 with
        | inl he => exact hwf l2 (by simp [he])
        | inr hm => exact ih.2 (fun e he => hwf e (by simp [he])) l2 hm

theorem data_append (a b : String) : (a ++ b).data = a.data ++ b.data := rfl

theorem foldl_append_data (ls : List String) : ∀ acc : String,
    (List.foldl (fun r s => r ++ s) acc ls).data =
      acc.data ++ (ls.map String.data).join := by
  induction ls with
  | nil => intro acc; simp
  | cons x tl ih =>
    intro acc
    simp only [List.foldl_cons]
    rw [ih (acc ++ x), data_append]
    simp

theorem join_data (ls : List String) :
    (String.join ls).data = (ls.map String.data).join := by
  rw [String.join, foldl_append_data]
  rfl

/-- The scan of the assembled comment body: each line is preceded by the
dollar-free continuation marker and indentation, so the indices of the
joined text are the concatenated per-line indices; the trailing closer
holds no dollar. -/
theorem stopIndices_assembleAux (ps : PluginSettings) : ∀ (ls : List String),
    (∀ l ∈ ls, wfScan l.data = true) → ∀ (t : List Char), (∀ d ∈ t, d ≠ '$') →
    stopIndices (((ls.map (fun line =>
      "\n *" ++ (if line = "" then "" else indentSpaces ps ++ line))).map
        String.data).join ++ t) = lineStops ls := by
  intro ls
  induction ls with
  | nil =>
    intro _ t ht
    have h0 := stopIndices_nodollar t ht []
    simp only [List.append_nil] at h0
    simpa using h0
  | cons l lr ih =>
    intro hwf t ht
    have hpre : ∀ d ∈ ("\n *".data : List Char), d ≠ '$' := by decide
    have hind : ∀ d ∈ (indentSpaces ps).data, d ≠ '$' := by
      intro d hd
      rw [indentSpaces] at hd
      have he := List.eq_of_mem_replicate hd
      subst he
      decide
    have hj : (((l :: lr).map (fun line =>
        "\n *" ++ (if line = "" then "" else indentSpaces ps ++ line))).map
        String.data).join =
        ("\n *" ++ (if l = "" then "" else indentSpaces ps ++ l)).data ++
        ((lr.map (fun line =>
          "\n *" ++ (if line = "" then "" else indentSpaces ps ++ line))).map
          String.data).join := by
      simp
    rw [hj, List.append_assoc]
    by_cases hl : l = ""
    · subst hl
      rw [if_pos rfl, data_append]
      rw [show ("" : String).data = ([] : List Char) from rfl]
      rw [List.append_nil]
      rw [stopIndices_nodollar ("\n *".data) hpre]
      rw [ih (fun e he => hwf e (by simp [he])) t ht]
      rw [lineStops_cons]
      rfl
    · rw [if_neg hl, data_append, data_append, List.append_assoc,
        List.append_assoc]
      rw [stopIndices_nodollar ("\n *".data) hpre]
      rw [stopIndices_nodollar ((indentSpaces ps).data) hind]
      rw [stopIndices_append_wf l.data.length l.data le_rfl (hwf l (by simp))]
      rw [ih (fun e he => hwf e (by simp [he])) t ht]
      rw [lineStops_cons]

theorem assembled_stops (ps : PluginSettings) (t : String)
    (ht : ∀ ch ∈ t.data, ch ≠ '$') : ∀ (ls : List String),
    (∀ l ∈ ls, wfScan l.data = true) →
    tabStopIndices ((String.join (ls.map (fun line =>
      "\n *" ++ (if line = "" then "" else indentSpaces ps ++ line))) ++
      "\n" ++ " */") ++ t) = lineStops ls := by
  intro ls hwf
  rw [tabStopIndices]
  have hd : (((String.join (ls.map (fun line =>
      "\n *" ++ (if line = "" then "" else indentSpaces ps ++ line)))) ++
      "\n" ++ " */" ++ t).data :
        List Char) =
      ((ls.map (fun line =>
        "\n *" ++ (if line = "" then "" else indentSpaces ps ++ line))).map
          String.data).join ++ ("\n".data ++ (" */".data ++ t.data)) := by
    simp only [data_append, join_data, List.append_assoc]
  rw [hd]
  refine stopIndices_assembleAux ps ls hwf _ ?_
  intro ch hch
  simp only [List.mem_append] at hch
  rcases hch with h | h | h
  · simp only [List.mem_singleton] at h
    subst h
    decide
  · have hall : ∀ c ∈ (" */".data : List Char), c ≠ '$' := by decide
    exact hall ch h
  · exact ht ch h

theorem fixTabStops_ne_nil (ls : List String) (h : ls ≠ []) :
    fixTabStops ls ≠ [] := by
  cases ls with
  | nil => exact absurd rfl h
  | cons l lr =>
    rw [fixTabStops, fixLines_cons]
    simp

/-- createSnippet on a nonempty, placeholder-closed line list followed by
dollar-free text: the snippet's tab-stop indices are the concatenated
per-line indices. -/
theorem createSnippet_stops (ps : PluginSettings) (out : List String)
    (trailing : String) (hne : out ≠ [])
    (hwf : ∀ l ∈ out, wfScan l.data = true)
    (t : String) (ht : ∀ ch ∈ t.data, ch ≠ '$') :
    tabStopIndices (createSnippet ps out trailing ++ t) = lineStops out := by
  simp only [createSnippet]
  rw [if_pos hne]
  cases hsp : ps.spacer_between_sections with
  | sTrue =>
    exact (assembled_stops ps t ht _
      ((spacerAll_stops _ out none).2 hwf)).trans (spacerAll_stops _ out none).1
  | afterDescription =>
    cases hb : ps.function_description.getD false with
    | true =>
      exact (assembled_stops ps t ht _
        ((spacerAfterDesc_stops out).2 hwf)).trans (spacerAfterDesc_stops out).1
    | false => exact assembled_stops ps t ht out hwf
  | off => exact assembled_stops ps t ht out hwf

/-- Claim C1, counterexample: a snippet produced with no body lines carries
the single fallback placeholder with index 0, so the indices of the final
text are [0] and not the gap-free sequence starting at 1. -/
theorem c1_counterexample :
    tabStopIndices (generateSnippet {} "" "" [] false "desc") = [0] ∧
    tabStopIndices (generateSnippet {} "" "" [] false "desc") ≠
      List.range' 1
        (tabStopIndices (generateSnippet {} "" "" [] false "desc")).length := by
  decide

/-- Claim C1 (amended): for a non-inline snippet generated from a nonempty
line list whose lines are placeholder-closed after variable substitution and
alignment, the tab-stop indices of the final text are exactly 1, 2, ..., n
in top-to-bottom, left-to-right scan order: the renumbering makes the
per-line indices consecutive from 1, and the section spacers, line markers,
indentation, closer and trailing newline add no stop and disturb none.
When the line list is empty the snippet instead holds the single index-0
placeholder around the trailing text. -/
theorem c1_amended (ps : PluginSettings) (d dt trailing : String)
    (out : List String)
    (h1 : genMid ps d dt out false ≠ [])
    (h2 : ∀ l ∈ genMid ps d dt out false, wfScan l.data = true) :
    tabStopIndices (generateSnippet ps d dt out false trailing) =
      List.range' 1 (totalStops (genMid ps d dt out false)) := by
  have hfix := fixLines_spec (genMid ps d dt out false) 1
  have hwf3 : ∀ l ∈ fixTabStops (genMid ps d dt out false),
      wfScan l.data = true := by
    rw [fixTabStops]
    exact hfix.2.2 h2
  have hls3 : lineStops (fixTabStops (genMid ps d dt out false)) =
      List.range' 1 (totalStops (genMid ps d dt out false)) := by
    rw [fixTabStops]
    exact hfix.1
  have hie : (genMid ps d dt out false).isEmpty = false := by
    cases hm : genMid ps d dt out false with
    | nil => exact absurd hm h1
    | cons a b => rfl
  have hgen : generateSnippet ps d dt out false trailing =
      createSnippet ps (fixTabStops (genMid ps d dt out false)) trailing ++
        (if ps.newline_after_block then "\n" else "") := by
    simp only [generateSnippet, hie, Bool.false_eq_true, if_false]
  rw [hgen]
  by_cases hnb : ps.newline_after_block = true
  · rw [if_pos hnb]
    rw [createSnippet_stops ps (fixTabStops (genMid ps d dt out false)) trailing
      (fixTabStops_ne_nil _ h1) hwf3 "\n" (by decide)]
    exact hls3
  · rw [if_neg hnb]
    rw [createSnippet_stops ps (fixTabStops (genMid ps d dt out false)) trailing
      (fixTabStops_ne_nil _ h1) hwf3 "" (by decide)]
    exact hls3

/-- Witness for c1_amended: a concrete two-line body whose aligned lines are
placeholder-closed; the final snippet's indices come out as 1, 2. -/
theorem c1_amended_witness :
    tabStopIndices (generateSnippet {} "" ""
      ["desc", "@param $\x7b9:[type]\x7d $\x7b7:name\x7d"] false "") =
      List.range' 1 (totalStops (genMid {} "" ""
        ["desc", "@param $\x7b9:[type]\x7d $\x7b7:name\x7d"] false)) :=
  c1_amended {} "" "" ""
    ["desc", "@param $\x7b9:[type]\x7d $\x7b7:name\x7d"]
    (by decide) (by decide)

end BespokeDocs
